import Mathlib

/-!
Verification of the `bigquery_crossref` JSONL processor.

A shallow embedding of `jsonl-processor/src/processor.js` and
`jsonl-processor/src/process-all.js` from the
Innovation-Information-Initiative/bigquery_crossref repository, together with
proofs about the record-normalization pipeline, the per-line streaming loop,
the gzip validation step and the batch resume logic.

Modelling conventions:
* A decoded JavaScript/JSON value is the inductive type `Json` below.  JSON
  numbers are modelled as integers (`Int`); every number the pipeline
  manipulates — years, months, days, ordinals — is integral, and no claim
  under verification depends on floating-point behaviour.
* JavaScript objects are modelled as association lists in property-insertion
  order.  `for (const key in obj)` enumerates that order; property update
  keeps the original position and property creation appends, which `objSet`
  reproduces.  Keys of parsed JSON objects are unique, so deletion removes
  every binding of the key.
* In-place mutation in the source (`processDateFields`, `fixBigQueryIssues`)
  is modelled by functions returning the updated value.  The two functions
  that recurse into values they have just rewritten are written against a
  fuel parameter and wrapped at fuel `jdepth v + 1`, which the depth lemmas
  below show is always sufficient.
-/

/-- A decoded JSON value, as produced by `JSON.parse` for one input line. -/
inductive Json where
  | null
  | bool (b : Bool)
  | num (n : Int)
  | str (s : String)
  | arr (elems : List Json)
  | obj (fields : List (String × Json))
deriving Inhabited

namespace Json

mutual

/-- Structural equality test, split into a mutual group over the nested list
positions (no deriving handler applies to the nested inductive). -/
def jeqv : Json → Json → Bool
  | .arr u, .arr v => jeqvList u v
  | .obj u, .obj v => jeqvFields u v
  | .null, .null => true
  | .bool u, .bool v => u == v
  | .num u, .num v => u == v
  | .str u, .str v => u == v
  | _, _ => false

/-- Elementwise equality of arrays. -/
def jeqvList : List Json → List Json → Bool
  | u :: us, v :: vs => jeqv u v && jeqvList us vs
  | [], [] => true
  | _, _ => false

/-- Fieldwise equality of objects. -/
def jeqvFields : List (String × Json) → List (String × Json) → Bool
  | (j, u) :: us, (k, v) :: vs => j == k && (jeqv u v && jeqvFields us vs)
  | [], [] => true
  | _, _ => false

end

mutual

/-- `jeqv` answers `true` on exactly the equal pairs. -/
theorem jeqv_iff_eq : ∀ u v : Json, jeqv u v = true ↔ u = v
  | .arr u, .arr v => by simp [jeqv, jeqvList_iff_eq u v]
  | .obj u, .obj v => by simp [jeqv, jeqvFields_iff_eq u v]
  | .null, .null => by simp [jeqv]
  | .bool _, .bool _ => by simp [jeqv]
  | .num _, .num _ => by simp [jeqv]
  | .str _, .str _ => by simp [jeqv]
  | .null, .bool _ | .null, .num _ | .null, .str _ | .null, .arr _
  | .null, .obj _ | .bool _, .null | .bool _, .num _ | .bool _, .str _
  | .bool _, .arr _ | .bool _, .obj _ | .num _, .null | .num _, .bool _
  | .num _, .str _ | .num _, .arr _ | .num _, .obj _ | .str _, .null
  | .str _, .bool _ | .str _, .num _ | .str _, .arr _ | .str _, .obj _
  | .arr _, .null | .arr _, .bool _ | .arr _, .num _ | .arr _, .str _
  | .arr _, .obj _ | .obj _, .null | .obj _, .bool _ | .obj _, .num _
  | .obj _, .str _ | .obj _, .arr _ => by simp [jeqv]

/-- Array analogue of `jeqv_iff_eq`. -/
theorem jeqvList_iff_eq : ∀ u v : List Json, jeqvList u v = true ↔ u = v
  | u :: us, v :: vs => by
      simp [jeqvList, jeqv_iff_eq u v, jeqvList_iff_eq us vs]
  | [], [] => by simp [jeqvList]
  | [], _ :: _ => by simp [jeqvList]
  | _ :: _, [] => by simp [jeqvList]

/-- Object analogue of `jeqv_iff_eq`. -/
theorem jeqvFields_iff_eq :
    ∀ u v : List (String × Json), jeqvFields u v = true ↔ u = v
  | (j, a) :: us, (k, b) :: vs => by
      simp [jeqvFields, jeqv_iff_eq a b, jeqvFields_iff_eq us vs, and_assoc]
  | [], [] => by simp [jeqvFields]
  | [], _ :: _ => by simp [jeqvFields]
  | _ :: _, [] => by simp [jeqvFields]

end

instance : DecidableEq Json := fun u v => decidable_of_iff _ (jeqv_iff_eq u v)

/-- `Array.isArray(v)`. -/
def isArr : Json → Bool
  | .arr _ => true
  | _ => false

/-- `typeof v === 'object'` (true for objects, arrays and `null`). -/
def typeofObject : Json → Bool
  | .obj _ => true
  | .arr _ => true
  | .null => true
  | _ => false

/-- JavaScript truthiness: `null`, `false`, `0` and `""` are falsy; arrays and
objects (even empty ones) are truthy. -/
def jsTruthy : Json → Bool
  | .null => false
  | .bool b => b
  | .num n => n != 0
  | .str s => s != ""
  | .arr _ => true
  | .obj _ => true

end Json

/-- Property read `fields[k]` on an object's field list: the first binding
(parsed JSON objects bind each key once). -/
def objGet (fs : List (String × Json)) (k : String) : Option Json :=
  match fs with
  | [] => none
  | (k', v) :: rest => if k' = k then some v else objGet rest k

/-- Property write `obj[k] = v`: update in place if the key is present,
otherwise append — JavaScript's property-order rule. -/
def objSet (fs : List (String × Json)) (k : String) (v : Json) :
    List (String × Json) :=
  match fs with
  | [] => [(k, v)]
  | (k', v') :: rest =>
      if k' = k then (k', v) :: rest else (k', v') :: objSet rest k v

/-- Property deletion `delete obj[k]` (keys are unique, so removing every
binding of `k` models it). -/
def objDelete (fs : List (String × Json)) (k : String) :
    List (String × Json) :=
  fs.filter (fun p => p.1 ≠ k)

/-- Property read on an arbitrary value: `v[k]` is a lookup on objects and
`undefined` (here `none`) on arrays, strings and primitives — none of the
record keys in play is an array index or string method name. -/
def jsGetProp (v : Json) (k : String) : Option Json :=
  match v with
  | .obj fs => objGet fs k
  | _ => none

/-! ## Character-list string helpers

String predicates from the source (`includes`, `startsWith`, `endsWith`,
`split(...)[0]`) are modelled on `List Char`, where the standard list
lemmas apply. -/

/-- `s.includes(pat)` — substring test. -/
def strContains (s pat : String) : Bool :=
  decide (pat.toList <:+: s.toList)

/-- `s.startsWith(pat)`. -/
def strStartsWith (s pat : String) : Bool :=
  pat.toList.isPrefixOf s.toList

/-- `s.endsWith(pat)`. -/
def strEndsWith (s pat : String) : Bool :=
  pat.toList.isSuffixOf s.toList

/-- `s.split(sep)[0]` for a one-character separator: the prefix of `s` before
the first occurrence of `sep` (all of `s` if `sep` does not occur). -/
def strSplitFirst (s : String) (sep : Char) : String :=
  ⟨s.toList.takeWhile (fun c => c ≠ sep)⟩

/-- `s.padStart(n, c)`. -/
def jsPadStart (s : String) (n : Nat) (c : Char) : String :=
  ⟨List.replicate (n - s.toList.length) c ++ s.toList⟩

/-! ## `parseInt(x, 10)` and `String(x)` -/

/-- A decimal digit. -/
def isDigitCh (c : Char) : Bool := '0' ≤ c && c ≤ '9'

/-- Whitespace skipped by `parseInt`. -/
def isWsCh (c : Char) : Bool := c == ' ' || c == '\t' || c == '\n' || c == '\r'

/-- Value of a digit run. -/
def digitsToNat (ds : List Char) : Nat :=
  ds.foldl (fun a c => a * 10 + (c.toNat - '0'.toNat)) 0

/-- `parseInt(s, 10)`: skip whitespace, read an optional sign, then the
longest leading digit run; `NaN` (here `none`) if that run is empty.  Radix
is fixed at 10 in every call site, so no hex prefix handling is needed. -/
def jsParseIntStr (s : String) : Option Int :=
  let cs := s.toList.dropWhile isWsCh
  let (neg, cs1) : Bool × List Char :=
    match cs with
    | c :: r =>
        if c = '-' then (true, r)
        else if c = '+' then (false, r)
        else (false, c :: r)
    | [] => (false, [])
  let ds := cs1.takeWhile isDigitCh
  if ds.isEmpty then none
  else some (if neg then -(digitsToNat ds : Int) else (digitsToNat ds : Int))

mutual

/-- `String(v)` for the values `parseInt` can receive: numbers print in
decimal, strings are themselves, `null` prints as `"null"`, arrays join
their element strings with `","` (with `null` elements contributing the
empty string), and plain objects print as `"[object Object]"`. -/
def jsToString : Json → String
  | .null => "null"
  | .bool b => if b then "true" else "false"
  | .num n => toString n
  | .str s => s
  | .arr l => jsJoinElems l
  | .obj _ => "[object Object]"

/-- `Array.prototype.join(',')` over element strings; a `null` element
contributes the empty string. -/
def jsJoinElems : List Json → String
  | [] => ""
  | [x] => if x = Json.null then "" else jsToString x
  | x :: xs =>
      (if x = Json.null then "" else jsToString x) ++ "," ++ jsJoinElems xs

end

/-- `parseInt(v, 10)` on an arbitrary value: JavaScript stringifies the
argument first. -/
def jsParseIntJ (v : Json) : Option Int :=
  jsParseIntStr (jsToString v)

/-! ## Depth measure (used as fuel for the two mutating traversals) -/

mutual

/-- Nesting depth of a value: scalars are 0, containers one more than their
deepest member. -/
def jdepth : Json → Nat
  | .null => 0
  | .bool _ => 0
  | .num _ => 0
  | .str _ => 0
  | .arr l => jdepthList l + 1
  | .obj fs => jdepthFields fs + 1

/-- Deepest element of an array. -/
def jdepthList : List Json → Nat
  | [] => 0
  | x :: xs => max (jdepth x) (jdepthList xs)

/-- Deepest field value of an object. -/
def jdepthFields : List (String × Json) → Nat
  | [] => 0
  | (_, v) :: r => max (jdepth v) (jdepthFields r)

end

/-! ## `cleanNullValues` (processor.js lines 23–56)

Removes `null` array elements, drops `null`-valued object keys except the
sentinel keys (containing `colidentifier`, or starting and ending with `*`),
which get the empty string instead.  The `parentKey` parameter of the source
is never read, so it is omitted. -/

/-- A key whose `null` value becomes `""` instead of being dropped. -/
def isSentinelKey (k : String) : Bool :=
  strContains k "colidentifier" || (strStartsWith k "*" && strEndsWith k "*")

mutual

/-- `cleanNullValues(obj)`. -/
def cleanNullValues : Json → Json
  | .arr l => .arr (cleanList l)
  | .obj fs => .obj (cleanFields fs)
  | v => v

/-- Array branch: filter out `null` items, recurse into the rest. -/
def cleanList : List Json → List Json
  | [] => []
  | x :: xs =>
      if x = Json.null then cleanList xs
      else cleanNullValues x :: cleanList xs

/-- Object branch: `null` keeps sentinel keys as `""`, drops the rest. -/
def cleanFields : List (String × Json) → List (String × Json)
  | [] => []
  | (k, v) :: rest =>
      if v = Json.null then
        if isSentinelKey k then (k, Json.str "") :: cleanFields rest
        else cleanFields rest
      else (k, cleanNullValues v) :: cleanFields rest

end

/-! ## `fixBigQueryIssues` (processor.js lines 62–100)

A string-valued `year` that is all digits becomes the parsed integer; any
other string moves verbatim to `year_string` (appended, per JavaScript
property creation) and `year` is deleted.  The traversal then recurses into
every remaining object/array value.  Because the recursion walks the field
list it has just rewritten, the definition takes fuel; the `year` rewrite
only moves a string (depth 0), so fuel `jdepth v + 1` suffices. -/

/-- `/^\d+$/.test(s)` — one or more digits and nothing else. -/
def isAllDigits (s : String) : Bool :=
  !s.toList.isEmpty && s.toList.all isDigitCh

/-- The `year` rewrite performed on one object's field list. -/
def yearFix (fs : List (String × Json)) : List (String × Json) :=
  match objGet fs "year" with
  | some (Json.str s) =>
      if !isAllDigits s then objDelete (objSet fs "year_string" (.str s)) "year"
      else
        match jsParseIntStr s with
        | some n => objSet fs "year" (.num n)
        | none => objDelete (objSet fs "year_string" (.str s)) "year"
  | _ => fs

/-- Fuelled `fixBigQueryIssues`. -/
def fixBigQueryIssuesF : Nat → Json → Json
  | 0, v => v
  | n + 1, .arr l => .arr (l.map (fixBigQueryIssuesF n))
  | n + 1, .obj fs =>
      .obj ((yearFix fs).map (fun p => (p.1, fixBigQueryIssuesF n p.2)))
  | _ + 1, v => v

/-- `fixBigQueryIssues(obj)` at sufficient fuel. -/
def fixBigQueryIssues (v : Json) : Json :=
  fixBigQueryIssuesF (jdepth v + 1) v

/-! ## `flattenNestedArrays` (processor.js lines 107–157)

An array containing arrays is concatenated one level (each nested array
contributes its items) and every resulting item is flattened recursively —
except under the key `date-parts`, where a one-element wrapper is unwrapped
without recursion and anything else is returned as-is.  Object fields pass
their key down as `parentKey`; array items are flattened with no key. -/

mutual

/-- `flattenNestedArrays(obj, parentKey)`. -/
def flattenJ (parentKey : Option String) : Json → Json
  | .arr l =>
      if l.any Json.isArr then
        if parentKey = some "date-parts" then
          match l with
          | [Json.arr inner] => .arr inner
          | _ => .arr l
        else .arr (flattenConcat l)
      else .arr (flattenMap l)
  | .obj fs => .obj (flattenFields fs)
  | v => v

/-- Concatenate one nesting level, then flatten each resulting item
(`flattened.map(item => flattenNestedArrays(item))`, fused). -/
def flattenConcat : List Json → List Json
  | [] => []
  | Json.arr ys :: xs => flattenMap ys ++ flattenConcat xs
  | Json.obj fs :: xs => flattenJ none (.obj fs) :: flattenConcat xs
  | Json.null :: xs => flattenJ none .null :: flattenConcat xs
  | Json.bool b :: xs => flattenJ none (.bool b) :: flattenConcat xs
  | Json.num n :: xs => flattenJ none (.num n) :: flattenConcat xs
  | Json.str t :: xs => flattenJ none (.str t) :: flattenConcat xs

/-- Flatten each item of a non-nested array. -/
def flattenMap : List Json → List Json
  | [] => []
  | x :: xs => flattenJ none x :: flattenMap xs

/-- Flatten each field value, passing the key as `parentKey`. -/
def flattenFields : List (String × Json) → List (String × Json)
  | [] => []
  | (k, v) :: rest => (k, flattenJ (some k) v) :: flattenFields rest

end

/-- `flattenNestedArrays(obj)` as called by the pipeline (no parent key). -/
def flattenNestedArrays (v : Json) : Json :=
  flattenJ none v

/-! ## `convertDatePartsToISOString` (processor.js lines 164–196) -/

/-- The one-element wrapper unwrap `[[...]] → [...]` repeated at each call
site (`dateParts.length === 1 && Array.isArray(dateParts[0])`). -/
def unwrapDateParts (dp : Json) : Json :=
  match dp with
  | .arr [Json.arr inner] => .arr inner
  | v => v

/-- `convertDatePartsToISOString(dateParts)`: `none` models the `null`
return.  `parts[0]` of an empty unwrapped list is `undefined`, which
`parseInt` maps to `NaN` exactly as it maps `null`, so the `Json.null`
default is faithful. -/
def convertDatePartsToISOString (dateParts : Json) : Option String :=
  match dateParts with
  | .arr l =>
      if l.isEmpty then none
      else
        let parts : List Json :=
          match l with
          | [Json.arr inner] => inner
          | _ => l
        let year := parts.getD 0 Json.null
        let month := parts.getD 1 (Json.num 1)
        let day := parts.getD 2 (Json.num 1)
        match jsParseIntJ year with
        | none => none
        | some yearNum =>
            let monthNum := (jsParseIntJ month).getD 1
            let dayNum := (jsParseIntJ day).getD 1
            some (jsPadStart (toString yearNum) 4 '0' ++ "-" ++
                  jsPadStart (toString monthNum) 2 '0' ++ "-" ++
                  jsPadStart (toString dayNum) 2 '0')
  | _ => none

/-- The date format the conversion targets: the year printed zero-padded to
four characters, month and day to two, joined with hyphens exactly as the
source's `padStart` formatting does. -/
def isoFormat (y m d : Int) : String :=
  jsPadStart (toString y) 4 '0' ++ "-" ++ jsPadStart (toString m) 2 '0' ++
    "-" ++ jsPadStart (toString d) 2 '0'

/-! ## `processDateFields` (processor.js lines 224–302)

Three rewrites on each object, in source order, then recursion into the
resulting field values: (a) a `date-parts` key is converted (adding `date`
when conversion succeeds) and deleted; (b) each named CrossRef date field
holding an object with a truthy `date-parts` is replaced by the ISO string,
or deleted when conversion fails; (c) each entry of a `license` array with a
truthy `start['date-parts']` has its `start` replaced by the ISO string, or
deleted on failure.  The recursion walks rewritten values, so the definition
takes fuel; every rewritten value is no deeper than the original field
values, so fuel `jdepth v + 1` suffices. -/

/-- The fixed list of CrossRef date fields. -/
def dateFieldNames : List String :=
  ["published", "created", "deposited", "indexed", "issued",
   "published-online", "published-print"]

/-- Rewrite (a): handle a direct `date-parts` field. -/
def phaseDateParts (fs : List (String × Json)) : List (String × Json) :=
  match objGet fs "date-parts" with
  | none => fs
  | some dp0 =>
      let dp := unwrapDateParts dp0
      let fs1 :=
        match convertDatePartsToISOString dp with
        | some iso => objSet fs "date" (.str iso)
        | none => fs
      objDelete fs1 "date-parts"

/-- Rewrite (b), one field: replace `obj[field]` by the ISO string when it is
a truthy object whose `date-parts` is truthy; delete it when conversion
fails. -/
def dateFieldStep (fs : List (String × Json)) (field : String) :
    List (String × Json) :=
  match objGet fs field with
  | none => fs
  | some v =>
      if v.jsTruthy && v.typeofObject then
        match jsGetProp v "date-parts" with
        | none => fs
        | some dp0 =>
            if dp0.jsTruthy then
              let dp := unwrapDateParts dp0
              match convertDatePartsToISOString dp with
              | some iso => objSet fs field (.str iso)
              | none => objDelete fs field
            else fs
      else fs

/-- Rewrite (c), one `license` entry. -/
def licenseEntryFix (e : Json) : Json :=
  if e.jsTruthy then
    match jsGetProp e "start" with
    | none => e
    | some st =>
        if st.jsTruthy then
          match jsGetProp st "date-parts" with
          | none => e
          | some dp0 =>
              if dp0.jsTruthy then
                let dp := unwrapDateParts dp0
                match e with
                | .obj efs =>
                    match convertDatePartsToISOString dp with
                    | some iso => .obj (objSet efs "start" (.str iso))
                    | none => .obj (objDelete efs "start")
                | v => v
              else e
        else e
  else e

/-- Rewrite (c): map over a `license` array's entries. -/
def phaseLicense (fs : List (String × Json)) : List (String × Json) :=
  match objGet fs "license" with
  | some (Json.arr es) => objSet fs "license" (.arr (es.map licenseEntryFix))
  | _ => fs

/-- All three rewrites on one object's field list, in source order. -/
def dateRewrites (fs : List (String × Json)) : List (String × Json) :=
  phaseLicense (dateFieldNames.foldl dateFieldStep (phaseDateParts fs))

/-- Fuelled `processDateFields`. -/
def processDateFieldsF : Nat → Json → Json
  | 0, v => v
  | n + 1, .arr l => .arr (l.map (processDateFieldsF n))
  | n + 1, .obj fs =>
      .obj ((dateRewrites fs).map (fun p => (p.1, processDateFieldsF n p.2)))
  | _ + 1, v => v

/-- `processDateFields(obj)` at sufficient fuel. -/
def processDateFields (v : Json) : Json :=
  processDateFieldsF (jdepth v + 1) v

/-! ## `replaceKeyDashes` (processor.js lines 202–217)

Every hyphen in every key becomes an underscore, at all depths.  The result
object is rebuilt key by key with JavaScript property-write semantics, so two
keys that collide after renaming leave a single property holding the
last-enumerated value. -/

/-- The key rename: every hyphen replaced with an underscore. -/
def replaceDashes (k : String) : String :=
  ⟨k.toList.map (fun c => if c = '-' then '_' else c)⟩

mutual

/-- `replaceKeyDashes(obj)`. -/
def replaceKeyDashes : Json → Json
  | .arr l => .arr (rkdList l)
  | .obj fs => .obj (rkdFields [] fs)
  | v => v

/-- Array branch. -/
def rkdList : List Json → List Json
  | [] => []
  | x :: xs => replaceKeyDashes x :: rkdList xs

/-- Object branch: fold the renamed bindings into a fresh result object. -/
def rkdFields (acc : List (String × Json)) :
    List (String × Json) → List (String × Json)
  | [] => acc
  | (k, v) :: rest =>
      rkdFields (objSet acc (replaceDashes k) (replaceKeyDashes v)) rest

end

/-! ## `JSON.stringify` and the last-ditch nested-array pass
(processor.js lines 376–394)

The transform serializes the record, and only when the serialized text
contains the literal `[[` does it run one corrective pass: a `stringify`
replacer that concatenates any array containing an array one level, applied
top-down, children of the replaced value included.  `JSON.parse` of
`JSON.stringify` of a value is the value itself at this model's level, so
the corrective pass is the value-level map `lastFixV`. -/

/-- JSON string escaping as `JSON.stringify` performs it. -/
def escapeJsonChar (c : Char) : String :=
  if c = '"' then "\\\""
  else if c = '\\' then "\\\\"
  else if c = '\n' then "\\n"
  else if c = '\r' then "\\r"
  else if c = '\t' then "\\t"
  else if c = Char.ofNat 8 then "\\b"
  else if c = Char.ofNat 12 then "\\f"
  else if c.toNat < 32 then
    "\\u00" ++ ⟨[Nat.digitChar (c.toNat / 16), Nat.digitChar (c.toNat % 16)]⟩
  else ⟨[c]⟩

/-- A JSON string literal. -/
def quoteJson (s : String) : String :=
  "\"" ++ String.join (s.toList.map escapeJsonChar) ++ "\""

mutual

/-- `JSON.stringify(v)` (no indentation, insertion-order keys). -/
def jsonStringify : Json → String
  | .null => "null"
  | .bool b => if b then "true" else "false"
  | .num n => toString n
  | .str s => quoteJson s
  | .arr l => "[" ++ stringifyElems l ++ "]"
  | .obj fs => "\x7b" ++ stringifyFields fs ++ "\x7d"

/-- Comma-separated array elements. -/
def stringifyElems : List Json → String
  | [] => ""
  | [x] => jsonStringify x
  | x :: xs => jsonStringify x ++ "," ++ stringifyElems xs

/-- Comma-separated `"key":value` pairs. -/
def stringifyFields : List (String × Json) → String
  | [] => ""
  | [(k, v)] => quoteJson k ++ ":" ++ jsonStringify v
  | (k, v) :: fs => quoteJson k ++ ":" ++ jsonStringify v ++ "," ++
      stringifyFields fs

end

mutual

/-- The last-ditch replacer: an array that contains an array is concatenated
one level (`[].concat(...value)`), and the serializer then visits the
children of the replaced value. -/
def lastFixV : Json → Json
  | .arr l =>
      if l.any Json.isArr then .arr (lastFixConcat l)
      else .arr (lastFixMap l)
  | .obj fs => .obj (lastFixFields fs)
  | v => v

/-- Children of a one-level concatenation. -/
def lastFixConcat : List Json → List Json
  | [] => []
  | Json.arr ys :: xs => lastFixMap ys ++ lastFixConcat xs
  | Json.obj fs :: xs => lastFixV (.obj fs) :: lastFixConcat xs
  | Json.null :: xs => lastFixV .null :: lastFixConcat xs
  | Json.bool b :: xs => lastFixV (.bool b) :: lastFixConcat xs
  | Json.num n :: xs => lastFixV (.num n) :: lastFixConcat xs
  | Json.str t :: xs => lastFixV (.str t) :: lastFixConcat xs

/-- Children of an array the replacer left alone. -/
def lastFixMap : List Json → List Json
  | [] => []
  | x :: xs => lastFixV x :: lastFixMap xs

/-- Children of an object. -/
def lastFixFields : List (String × Json) → List (String × Json)
  | [] => []
  | (k, v) :: rest => (k, lastFixV v) :: lastFixFields rest

end

/-- The per-record pipeline of the transform stream (processor.js lines
364–394): flatten, convert dates, fix years, clean nulls, rename keys, then
the conditional corrective pass keyed on the serialized text containing
`[[`. -/
def transformRecord (j : Json) : Json :=
  let flattenedObj := flattenNestedArrays j
  let dated := processDateFields flattenedObj
  let fixed := fixBigQueryIssues dated
  let cleanedObj := cleanNullValues fixed
  let standardizedObj := replaceKeyDashes cleanedObj
  let jsonStr := jsonStringify standardizedObj
  if strContains jsonStr "[[" then lastFixV standardizedObj
  else standardizedObj

/-! ## The per-line streaming loop (processor.js lines 354–453)

One input line, after trimming, is blank, unparseable, or a decoded value;
`JSON.parse` itself is abstracted into that classification.  The transform
stream emits the empty chunk for blank lines, counts and swallows parse
failures (emitting the empty chunk), and otherwise serializes the
transformed record with a trailing newline and counts it as processed.  The
debug flag gates only writes to the side debug log, whose entry text is
modelled abstractly (the stream's counter and data behaviour is what the
claims are about). -/

/-- A trimmed input line, with `JSON.parse` abstracted to its outcome. -/
inductive LineInput where
  | blank
  | malformed
  | valid (j : Json)
deriving DecidableEq

/-- The transform stream's observable state: chunks handed to the gzip sink,
debug-log entries, and the two counters. -/
structure RunStats where
  emitted : List String
  debugLog : List String
  processedCount : Nat
  errorCount : Nat
deriving DecidableEq

/-- The debug entries the transform writes for one successfully parsed line:
a nested-array warning when the serialized record still contains d`[[`, and a
suspicious-year capture otherwise (text abstracted). -/
def debugEntriesFor (j : Json) : List String :=
  if strContains (jsonStringify (transformRecord j)) "[[" then
    ["nested-array warning"]
  else if strContains (jsonStringify j) "\"year\":" then
    ["year capture"]
  else []

/-- One `transform(line, …, callback)` invocation. -/
def stepLine (debugMode : Bool) (st : RunStats) : LineInput → RunStats
  | .blank => ⟨st.emitted ++ [""], st.debugLog, st.processedCount, st.errorCount⟩
  | .malformed =>
      ⟨st.emitted ++ [""],
       st.debugLog ++ (if debugMode then ["parse error"] else []),
       st.processedCount, st.errorCount + 1⟩
  | .valid j =>
      ⟨st.emitted ++ [jsonStringify (transformRecord j) ++ "\n"],
       st.debugLog ++ (if debugMode then debugEntriesFor j else []),
       st.processedCount + 1, st.errorCount⟩

/-- The whole line loop of one file. -/
def runLines (debugMode : Bool) (lines : List LineInput) : RunStats :=
  lines.foldl (stepLine debugMode) ⟨[], [], 0, 0⟩

/-- What one line contributes to the compressed output. -/
def emitChunk : LineInput → String
  | .blank => ""
  | .malformed => ""
  | .valid j => jsonStringify (transformRecord j) ++ "\n"

/-- Whether one line parses. -/
def LineInput.isValid : LineInput → Bool
  | .valid _ => true
  | _ => false

/-- Whether one line is malformed. -/
def LineInput.isMalformed : LineInput → Bool
  | .malformed => true
  | _ => false

/-- Concatenation of the emitted chunks (the bytes fed to the gzip sink). -/
def concatAll (l : List String) : String :=
  l.foldr (· ++ ·) ""

/-! ## `processJsonlFile` promise outcome (processor.js lines 313–522)

The stream plumbing is modelled by its two observable outcomes: an
unrecoverable stream-level error (source read failure or destination write
failure) rejects the promise, and otherwise the promise resolves with the
two counters.  Per-line behaviour is `runLines`. -/

/-- An unrecoverable stream-level error. -/
inductive StreamErr where
  | sourceRead
  | destWrite
deriving DecidableEq

/-- `processJsonlFile`'s settled promise: `error` models rejection,
`ok (processedCount, errorCount)` models resolution. -/
def processJsonlFileOutcome (debugMode : Bool) (lines : List LineInput)
    (streamErr : Option StreamErr) : Except StreamErr (Nat × Nat) :=
  match streamErr with
  | some e => .error e
  | none =>
      let st := runLines debugMode lines
      .ok (st.processedCount, st.errorCount)

/-! ## `validateGzipFile` (process-all.js lines 169–205)

Reading the artifact produces some number of decompressed data chunks and
then either a clean end or a gunzip/read error.  Without debug mode the
validator destroys the streams and resolves `true` on the first data chunk —
before any later error can fire; with debug mode it consumes the whole
stream.  An empty stream that ends cleanly rejects with `Empty gzip file`. -/

/-- What decompressing the output artifact would yield: how many data chunks
arrive, and whether the stream then ends cleanly or errors. -/
structure GzipReadTrace where
  dataChunks : Nat
  cleanEnd : Bool
deriving DecidableEq

/-- `validateGzipFile(filePath)`: `true` models resolution, `false`
rejection. -/
def validateGzipFile (debugMode : Bool) (t : GzipReadTrace) : Bool :=
  if !debugMode && t.dataChunks > 0 then true
  else if !t.cleanEnd then false
  else t.dataChunks > 0

/-! ## `processFile` (process-all.js lines 267–308)

Awaits the processor, validates the artifact, and on any caught error
removes the output file (when it exists) and reports failure with zeroed
counts. -/

/-- Result of one file job. -/
structure ProcessFileResult where
  success : Bool
  records : Nat
  errors : Nat
  outputDeleted : Bool
deriving DecidableEq

/-- One `processFile` run.  `outputExists` says whether a (partial) output
artifact is on disk at the point the catch block would run; deletion happens
exactly when a failure is caught and the artifact exists. -/
def processFile (debugMode : Bool) (lines : List LineInput)
    (streamErr : Option StreamErr) (t : GzipReadTrace)
    (outputExists : Bool) : ProcessFileResult :=
  match processJsonlFileOutcome debugMode lines streamErr with
  | .error _ => ⟨false, 0, 0, outputExists⟩
  | .ok (processedCount, errorCount) =>
      if validateGzipFile debugMode t then
        ⟨true, processedCount, errorCount, false⟩
      else ⟨false, 0, 0, outputExists⟩

/-! ## `getFilesToProcess` (process-all.js lines 208–250)

A pure function of the two directory listings: keep the `.jsonl.gz` inputs,
sort them by the integer before the first dot, and in resume mode drop every
input whose `<ordinal>_processed.jsonl.gz` artifact is already in the
output listing.  The jobs a run dispatches are exactly the members of the
returned list (`processFiles` iterates it and nothing else). -/

/-- `path.basename`: the part after the last `/`. -/
def jsBasename (p : String) : String :=
  ⟨(p.toList.reverse.takeWhile (fun c => c ≠ '/')).reverse⟩

/-- The numeric sort key `parseInt(file.split('.')[0])`; files are named
`<ordinal>.jsonl.gz`, so the key parses (comparator behaviour on `NaN` keys
is unspecified in JavaScript sorts and is defaulted here). -/
def fileSortKey (f : String) : Int :=
  (jsParseIntStr (strSplitFirst f '.')).getD 0

/-- `getFilesToProcess()` as a function of the input and output directory
listings. -/
def getFilesToProcess (inputFiles outputFiles : List String)
    (resumeMode : Bool) (specificFile : Option String) : List String :=
  match specificFile with
  | some f =>
      let file := jsBasename f
      if inputFiles.contains file then [file] else []
  | none =>
      let allFiles :=
        (inputFiles.filter (fun f => strEndsWith f ".jsonl.gz")).mergeSort
          (fun a b => fileSortKey a ≤ fileSortKey b)
      if resumeMode then
        let processedFiles :=
          (outputFiles.filter
              (fun f => strEndsWith f "_processed.jsonl.gz")).map
            (fun f => strSplitFirst f '_' ++ ".jsonl.gz")
        allFiles.filter (fun f => !processedFiles.contains f)
      else allFiles

/-! ## Structural predicates

`jsonOK Pobj Parr` holds when every object node satisfies `Pobj`, every
array node satisfies `Parr`, and so on recursively; the individual
invariants of a normalized record are instances.  `nestLe2` (arrays nested
at most two deep, the depth resetting under object values) and `nnx` (no
array directly contains an array, except that values of a `date-parts` key
are unconstrained) are the two bespoke predicates of the flattening
analysis. -/

mutual

/-- Every node satisfies the object/array conditions. -/
def jsonOK (Pobj : List (String × Json) → Bool)
    (Parr : List Json → Bool) : Json → Bool
  | .arr l => Parr l && jsonOKList Pobj Parr l
  | .obj fs => Pobj fs && jsonOKFields Pobj Parr fs
  | _ => true

/-- `jsonOK` over array elements. -/
def jsonOKList (Pobj : List (String × Json) → Bool)
    (Parr : List Json → Bool) : List Json → Bool
  | [] => true
  | x :: xs => jsonOK Pobj Parr x && jsonOKList Pobj Parr xs

/-- `jsonOK` over field values. -/
def jsonOKFields (Pobj : List (String × Json) → Bool)
    (Parr : List Json → Bool) : List (String × Json) → Bool
  | [] => true
  | (_, v) :: r => jsonOK Pobj Parr v && jsonOKFields Pobj Parr r

end

/-- No array directly contains an array, anywhere in the value. -/
def noNested : Json → Bool :=
  jsonOK (fun _ => true) (fun l => l.all (fun x => !x.isArr))

/-- No `null` value anywhere: no object field is `null` and no array element
is `null`. -/
def noNulls : Json → Bool :=
  jsonOK (fun fs => fs.all (fun p => p.2 ≠ Json.null))
    (fun l => l.all (fun x => x ≠ Json.null))

/-- No object anywhere has a `date-parts` key. -/
def noDatePartsKey : Json → Bool :=
  jsonOK (fun fs => fs.all (fun p => p.1 ≠ "date-parts")) (fun _ => true)

/-- No object anywhere has a string-valued `year`. -/
def yearNotString : Json → Bool :=
  jsonOK
    (fun fs =>
      match objGet fs "year" with
      | some (Json.str _) => false
      | _ => true)
    (fun _ => true)

/-- Whether a key list is duplicate-free. -/
def nodupKeys : List (String × Json) → Bool
  | [] => true
  | (k, _) :: r => !(r.map Prod.fst).contains k && nodupKeys r

/-- Every object has duplicate-free keys without hyphens. -/
def keysNormalized : Json → Bool :=
  jsonOK
    (fun fs => nodupKeys fs && fs.all (fun p => !strContains p.1 "-"))
    (fun _ => true)

/-- The invariants of a Normalized Record: no nested array, no `null`
value, no `date-parts` field, no string-valued `year`, and duplicate-free
hyphen-free keys. -/
def normalizedRecord (j : Json) : Bool :=
  noNested j && noNulls j && noDatePartsKey j && yearNotString j &&
    keysNormalized j

mutual

/-- Arrays are nested at most two deep: an array's array elements contain no
further arrays.  Object values restart the count. -/
def nestLe2 : Json → Bool
  | .arr l => nestList1 l
  | .obj fs => nestFields fs
  | _ => true

/-- Elements allowed one more level of array nesting. -/
def nestList1 : List Json → Bool
  | [] => true
  | Json.arr ys :: xs => nestList0 ys && nestList1 xs
  | Json.obj fs :: xs => nestFields fs && nestList1 xs
  | Json.null :: xs => nestList1 xs
  | Json.bool _ :: xs => nestList1 xs
  | Json.num _ :: xs => nestList1 xs
  | Json.str _ :: xs => nestList1 xs

/-- Elements allowed no array nesting at all. -/
def nestList0 : List Json → Bool
  | [] => true
  | Json.arr _ :: _ => false
  | Json.obj fs :: xs => nestFields fs && nestList0 xs
  | Json.null :: xs => nestList0 xs
  | Json.bool _ :: xs => nestList0 xs
  | Json.num _ :: xs => nestList0 xs
  | Json.str _ :: xs => nestList0 xs

/-- `nestLe2` over field values. -/
def nestFields : List (String × Json) → Bool
  | [] => true
  | (_, v) :: r => nestLe2 v && nestFields r

end

mutual

/-- No array directly contains an array, except below a `date-parts` key,
whose value is unconstrained (the date pass consumes and deletes it). -/
def nnx : Json → Bool
  | .arr l => nnxList l
  | .obj fs => nnxFields fs
  | _ => true

/-- `nnx` over array elements, which must not themselves be arrays. -/
def nnxList : List Json → Bool
  | [] => true
  | x :: xs => !x.isArr && nnx x && nnxList xs

/-- `nnx` over fields: a `date-parts` value is exempt. -/
def nnxFields : List (String × Json) → Bool
  | [] => true
  | (k, v) :: r => (k == "date-parts" || nnx v) && nnxFields r

end

/-! ## Association-list lemmas -/

theorem objGet_objSet_self (fs : List (String × Json)) (k : String) (v : Json) :
    objGet (objSet fs k v) k = some v := by
  induction fs with
  | nil => simp [objSet, objGet]
  | cons p rest ih =>
      obtain ⟨k', v'⟩ := p
      by_cases h : k' = k <;> simp [objSet, objGet, h, ih]

theorem objGet_objSet_ne (fs : List (String × Json)) (k k' : String)
    (v : Json) (h : k' ≠ k) : objGet (objSet fs k v) k' = objGet fs k' := by
  induction fs with
  | nil => simp [objSet, objGet, Ne.symm h]
  | cons p rest ih =>
      obtain ⟨k₀, v₀⟩ := p
      by_cases h0 : k₀ = k
      · subst h0
        simp [objSet, objGet, Ne.symm h]
      · by_cases h1 : k₀ = k' <;> simp [objSet, objGet, h0, h1, ih, h]

theorem objGet_objDelete_self (fs : List (String × Json)) (k : String) :
    objGet (objDelete fs k) k = none := by
  induction fs with
  | nil => simp [objDelete, objGet]
  | cons p rest ih =>
      obtain ⟨k₀, v₀⟩ := p
      by_cases h0 : k₀ = k <;> simp_all [objDelete, objGet, h0]

theorem objGet_objDelete_ne (fs : List (String × Json)) (k k' : String)
    (h : k' ≠ k) : objGet (objDelete fs k) k' = objGet fs k' := by
  induction fs with
  | nil => simp [objDelete, objGet]
  | cons p rest ih =>
      obtain ⟨k₀, v₀⟩ := p
      by_cases h0 : k₀ = k
      · subst h0
        simp_all [objDelete, objGet, Ne.symm h]
      · by_cases h1 : k₀ = k' <;> simp_all [objDelete, objGet, h0, h1]

theorem objSet_self (fs : List (String × Json)) (k : String) (v : Json)
    (h : objGet fs k = some v) : objSet fs k v = fs := by
  induction fs with
  | nil => simp [objGet] at h
  | cons p rest ih =>
      obtain ⟨k₀, v₀⟩ := p
      by_cases h0 : k₀ = k
      · subst h0
        simp [objGet] at h
        simp [objSet, h]
      · simp [objGet, h0] at h
        simp [objSet, h0, ih h]

theorem mem_objSet (fs : List (String × Json)) (k : String) (v : Json)
    (p : String × Json) (h : p ∈ objSet fs k v) : p ∈ fs ∨ p = (k, v) := by
  induction fs with
  | nil => simp [objSet] at h; simp [h]
  | cons q rest ih =>
      obtain ⟨k₀, v₀⟩ := q
      by_cases h0 : k₀ = k
      · subst h0
        simp [objSet] at h
        rcases h with h | h
        · right; simp [h]
        · left; simp [h]
      · simp [objSet, h0] at h
        rcases h with h | h
        · left; simp [h]
        · rcases ih h with h' | h'
          · left; simp [h']
          · right; exact h'

theorem mem_objDelete (fs : List (String × Json)) (k : String)
    (p : String × Json) (h : p ∈ objDelete fs k) : p ∈ fs :=
  List.mem_of_mem_filter h

theorem objGet_mem (fs : List (String × Json)) (k : String) (v : Json)
    (h : objGet fs k = some v) : (k, v) ∈ fs := by
  induction fs with
  | nil => simp [objGet] at h
  | cons q rest ih =>
      obtain ⟨k₀, v₀⟩ := q
      by_cases h0 : k₀ = k
      · subst h0
        simp [objGet] at h
        simp [h]
      · simp [objGet, h0] at h
        simp [ih h]

theorem objGet_eq_none (fs : List (String × Json)) (k : String)
    (h : ∀ p ∈ fs, p.1 ≠ k) : objGet fs k = none := by
  induction fs with
  | nil => simp [objGet]
  | cons q rest ih =>
      obtain ⟨k₀, v₀⟩ := q
      have hk : k₀ ≠ k := h (k₀, v₀) (by simp)
      exact (by simp [objGet, hk, ih (fun p hp => h p (by simp [hp]))])

theorem objSet_append (fs : List (String × Json)) (k : String) (v : Json)
    (h : ∀ p ∈ fs, p.1 ≠ k) : objSet fs k v = fs ++ [(k, v)] := by
  induction fs with
  | nil => simp [objSet]
  | cons q rest ih =>
      obtain ⟨k₀, v₀⟩ := q
      have hk : k₀ ≠ k := h (k₀, v₀) (by simp)
      simp [objSet, hk, ih (fun p hp => h p (by simp [hp]))]

/-! ## Membership characterizations of the predicates -/

theorem jsonOKList_iff (P : List (String × Json) → Bool)
    (A : List Json → Bool) (l : List Json) :
    jsonOKList P A l = true ↔ ∀ x ∈ l, jsonOK P A x = true := by
  induction l with
  | nil => simp [jsonOKList]
  | cons x xs ih => simp [jsonOKList, ih]

theorem jsonOKFields_iff (P : List (String × Json) → Bool)
    (A : List Json → Bool) (fs : List (String × Json)) :
    jsonOKFields P A fs = true ↔ ∀ p ∈ fs, jsonOK P A p.2 = true := by
  induction fs with
  | nil => simp [jsonOKFields]
  | cons p r ih =>
      obtain ⟨k, v⟩ := p
      simp [jsonOKFields, ih]

theorem nnxList_iff (l : List Json) :
    nnxList l = true ↔ ∀ x ∈ l, x.isArr = false ∧ nnx x = true := by
  induction l with
  | nil => simp [nnxList]
  | cons x xs ih => simp [nnxList, ih, Bool.not_eq_true', and_assoc]

theorem nnxFields_iff (fs : List (String × Json)) :
    nnxFields fs = true ↔ ∀ p ∈ fs, p.1 = "date-parts" ∨ nnx p.2 = true := by
  induction fs with
  | nil => simp [nnxFields]
  | cons p r ih =>
      obtain ⟨k, v⟩ := p
      by_cases hk : k = "date-parts" <;> simp [nnxFields, ih, hk]

theorem nestFields_iff (fs : List (String × Json)) :
    nestFields fs = true ↔ ∀ p ∈ fs, nestLe2 p.2 = true := by
  induction fs with
  | nil => simp [nestFields]
  | cons p r ih =>
      obtain ⟨k, v⟩ := p
      simp [nestFields, ih]

/-! ## Depth lemmas -/

theorem jdepth_le_of_mem_list (l : List Json) (x : Json) (h : x ∈ l) :
    jdepth x ≤ jdepthList l := by
  induction l with
  | nil => simp at h
  | cons y ys ih =>
      rcases List.mem_cons.mp h with h' | h'
      · subst h'
        simp [jdepthList, Nat.le_max_left]
      · exact Nat.le_trans (ih h') (by simp [jdepthList, Nat.le_max_right])

theorem jdepth_le_of_mem_fields (fs : List (String × Json))
    (p : String × Json) (h : p ∈ fs) : jdepth p.2 ≤ jdepthFields fs := by
  induction fs with
  | nil => simp at h
  | cons q r ih =>
      obtain ⟨k, v⟩ := q
      rcases List.mem_cons.mp h with h' | h'
      · subst h'
        simp [jdepthFields, Nat.le_max_left]
      · exact Nat.le_trans (ih h') (by simp [jdepthFields, Nat.le_max_right])

theorem jdepthFields_objSet_le (fs : List (String × Json)) (k : String)
    (v : Json) :
    jdepthFields (objSet fs k v) ≤ max (jdepthFields fs) (jdepth v) := by
  induction fs with
  | nil => simp [objSet, jdepthFields]
  | cons q rest ih =>
      obtain ⟨k₀, v₀⟩ := q
      by_cases h0 : k₀ = k
      · subst h0
        simp only [objSet, if_pos rfl, jdepthFields]
        omega
      · simp only [objSet, if_neg h0, jdepthFields]
        omega

theorem jdepthFields_objDelete_le (fs : List (String × Json)) (k : String) :
    jdepthFields (objDelete fs k) ≤ jdepthFields fs := by
  induction fs with
  | nil => simp [objDelete, jdepthFields]
  | cons q rest ih =>
      obtain ⟨k₀, v₀⟩ := q
      by_cases h0 : k₀ = k <;>
        simp only [objDelete, List.filter] at ih ⊢ <;>
        by_cases hd : (k₀ ≠ k : Bool) = true <;>
        simp_all [jdepthFields] <;> omega

theorem mem_objDelete_ne (fs : List (String × Json)) (k : String)
    (p : String × Json) (h : p ∈ objDelete fs k) : p ∈ fs ∧ p.1 ≠ k := by
  have := List.mem_filter.mp h
  simpa using this

/-! ## The date rewrites do not deepen an object -/

theorem jdepthFields_phaseDateParts_le (fs : List (String × Json)) :
    jdepthFields (phaseDateParts fs) ≤ jdepthFields fs := by
  unfold phaseDateParts
  cases h : objGet fs "date-parts" with
  | none => exact Nat.le_refl _
  | some dp0 =>
      cases hc : convertDatePartsToISOString (unwrapDateParts dp0) with
      | none =>
          simp only [hc]
          exact jdepthFields_objDelete_le fs "date-parts"
      | some iso =>
          simp only [hc]
          refine Nat.le_trans (jdepthFields_objDelete_le _ "date-parts") ?_
          refine Nat.le_trans (jdepthFields_objSet_le fs "date" (.str iso)) ?_
          simp [jdepth]

theorem jdepthFields_dateFieldStep_le (fs : List (String × Json))
    (field : String) : jdepthFields (dateFieldStep fs field) ≤
      jdepthFields fs := by
  unfold dateFieldStep
  cases h : objGet fs field with
  | none => exact Nat.le_refl _
  | some v =>
      dsimp only
      split
      · cases hp : jsGetProp v "date-parts" with
        | none => exact Nat.le_refl _
        | some dp0 =>
            dsimp only
            split
            · cases hc : convertDatePartsToISOString (unwrapDateParts dp0) with
              | none =>
                  simp only [hc]
                  exact jdepthFields_objDelete_le fs field
              | some iso =>
                  simp only [hc]
                  refine Nat.le_trans
                    (jdepthFields_objSet_le fs field (.str iso)) ?_
                  simp [jdepth]
            · exact Nat.le_refl _
      · exact Nat.le_refl _

theorem jdepth_licenseEntryFix_le (e : Json) :
    jdepth (licenseEntryFix e) ≤ jdepth e := by
  unfold licenseEntryFix
  split
  · cases hs : jsGetProp e "start" with
    | none => exact Nat.le_refl _
    | some st =>
        dsimp only
        split
        · cases hp : jsGetProp st "date-parts" with
          | none => exact Nat.le_refl _
          | some dp0 =>
              dsimp only
              split
              · cases e with
                | obj efs =>
                    cases hc :
                        convertDatePartsToISOString (unwrapDateParts dp0) with
                    | none =>
                        simp only [hc, jdepth]
                        exact Nat.add_le_add_right
                          (jdepthFields_objDelete_le efs "start") 1
                    | some iso =>
                        simp only [hc, jdepth]
                        refine Nat.add_le_add_right ?_ 1
                        refine Nat.le_trans
                          (jdepthFields_objSet_le efs "start" (.str iso)) ?_
                        simp [jdepth]
                | null => exact Nat.le_refl _
                | bool b => exact Nat.le_refl _
                | num n => exact Nat.le_refl _
                | str s => exact Nat.le_refl _
                | arr l => exact Nat.le_refl _
              · exact Nat.le_refl _
        · exact Nat.le_refl _
  · exact Nat.le_refl _

theorem jdepthList_map_licenseEntryFix_le (es : List Json) :
    jdepthList (es.map licenseEntryFix) ≤ jdepthList es := by
  induction es with
  | nil => simp [jdepthList]
  | cons e r ih =>
      simp only [List.map, jdepthList]
      exact max_le_max (jdepth_licenseEntryFix_le e) ih

theorem jdepthFields_phaseLicense_le (fs : List (String × Json)) :
    jdepthFields (phaseLicense fs) ≤ jdepthFields fs := by
  unfold phaseLicense
  cases h : objGet fs "license" with
  | none => exact Nat.le_refl _
  | some v =>
      cases v with
      | arr es =>
          dsimp only
          refine Nat.le_trans (jdepthFields_objSet_le fs "license"
            (.arr (es.map licenseEntryFix))) ?_
          have h1 : jdepth (Json.arr (es.map licenseEntryFix)) ≤
              jdepth (Json.arr es) := by
            simp only [jdepth]
            exact Nat.add_le_add_right (jdepthList_map_licenseEntryFix_le es) 1
          have h2 : jdepth (Json.arr es) ≤ jdepthFields fs :=
            jdepth_le_of_mem_fields fs ("license", .arr es) (objGet_mem _ _ _ h)
          omega
      | null => exact Nat.le_refl _
      | bool b => exact Nat.le_refl _
      | num n => exact Nat.le_refl _
      | str s => exact Nat.le_refl _
      | obj o => exact Nat.le_refl _

theorem jdepthFields_foldl_dateFieldStep_le (names : List String)
    (fs : List (String × Json)) :
    jdepthFields (names.foldl dateFieldStep fs) ≤ jdepthFields fs := by
  induction names generalizing fs with
  | nil => exact Nat.le_refl _
  | cons f r ih =>
      simp only [List.foldl]
      exact Nat.le_trans (ih (dateFieldStep fs f))
        (jdepthFields_dateFieldStep_le fs f)

theorem jdepthFields_dateRewrites_le (fs : List (String × Json)) :
    jdepthFields (dateRewrites fs) ≤ jdepthFields fs := by
  unfold dateRewrites
  refine Nat.le_trans (jdepthFields_phaseLicense_le _) ?_
  exact Nat.le_trans (jdepthFields_foldl_dateFieldStep_le _ _)
    (jdepthFields_phaseDateParts_le fs)

/-! ## The passes preserve each value's top-level constructor class -/

theorem processDateFieldsF_isArr (n : Nat) (v : Json) :
    (processDateFieldsF n v).isArr = v.isArr := by
  cases n <;> cases v <;> rfl

theorem fixBigQueryIssuesF_isArr (n : Nat) (v : Json) :
    (fixBigQueryIssuesF n v).isArr = v.isArr := by
  cases n <;> cases v <;> rfl

theorem cleanNullValues_isArr (v : Json) :
    (cleanNullValues v).isArr = v.isArr := by
  cases v <;> rfl

theorem replaceKeyDashes_isArr (v : Json) :
    (replaceKeyDashes v).isArr = v.isArr := by
  cases v <;> rfl

theorem flattenJ_isArr (pk : Option String) (v : Json) :
    (flattenJ pk v).isArr = v.isArr := by
  cases v with
  | arr l =>
      show (flattenJ pk (.arr l)).isArr = true
      rw [flattenJ.eq_def]
      repeat' split
      all_goals first | rfl | simp_all
  | null => rfl
  | bool b => rfl
  | num n => rfl
  | str s => rfl
  | obj fs => rfl

theorem licenseEntryFix_isArr (e : Json) :
    (licenseEntryFix e).isArr = e.isArr := by
  unfold licenseEntryFix
  split
  · cases hs : jsGetProp e "start" with
    | none => rfl
    | some st =>
        dsimp only
        split
        · cases hp : jsGetProp st "date-parts" with
          | none => rfl
          | some dp0 =>
              dsimp only
              split
              · cases e with
                | obj efs =>
                    cases hc :
                        convertDatePartsToISOString (unwrapDateParts dp0) <;>
                      simp [hc, Json.isArr]
                | null => rfl
                | bool b => rfl
                | num n => rfl
                | str s => rfl
                | arr l => rfl
              · rfl
        · rfl
  · rfl

/-! ## `nnx` is preserved by the date rewrites -/

theorem nnx_licenseEntryFix (e : Json) (h : nnx e = true) :
    nnx (licenseEntryFix e) = true := by
  unfold licenseEntryFix
  split
  · cases hs : jsGetProp e "start" with
    | none => exact h
    | some st =>
        dsimp only
        split
        · cases hp : jsGetProp st "date-parts" with
          | none => exact h
          | some dp0 =>
              dsimp only
              split
              · cases e with
                | obj efs =>
                    have hfs : nnxFields efs = true := h
                    cases hc :
                        convertDatePartsToISOString (unwrapDateParts dp0) with
                    | some iso =>
                        simp only [hc]
                        show nnxFields (objSet efs "start" (.str iso)) = true
                        rw [nnxFields_iff]
                        intro p hp'
                        rcases mem_objSet _ _ _ _ hp' with hm | hm
                        · exact (nnxFields_iff efs).mp hfs p hm
                        · subst hm
                          right
                          rfl
                    | none =>
                        simp only [hc]
                        show nnxFields (objDelete efs "start") = true
                        rw [nnxFields_iff]
                        intro p hp'
                        exact (nnxFields_iff efs).mp hfs p
                          (mem_objDelete _ _ _ hp')
                | null => exact h
                | bool b => exact h
                | num n => exact h
                | str s => exact h
                | arr l => exact h
              · exact h
        · exact h
  · exact h

theorem ne_of_objGet_eq_none (fs : List (String × Json)) (k : String)
    (h : objGet fs k = none) : ∀ p ∈ fs, p.1 ≠ k := by
  induction fs with
  | nil => simp
  | cons q rest ih =>
      obtain ⟨k₀, v₀⟩ := q
      by_cases h0 : k₀ = k
      · simp [objGet, h0] at h
      · simp only [objGet, if_neg h0] at h
        intro p hp
        rcases List.mem_cons.mp hp with h' | h'
        · subst h'
          exact h0
        · exact ih h p h'

/-- After the `date-parts` deletion, every field value satisfies `nnx` and
no field is keyed `date-parts`. -/
theorem nnx_phaseDateParts (fs : List (String × Json))
    (h : nnxFields fs = true) :
    ∀ p ∈ phaseDateParts fs, nnx p.2 = true := by
  intro p hp
  unfold phaseDateParts at hp
  cases hg : objGet fs "date-parts" with
  | none =>
      rw [hg] at hp
      rcases (nnxFields_iff fs).mp h p hp with hk | hv
      · exact absurd hk (ne_of_objGet_eq_none fs "date-parts" hg p hp)
      · exact hv
  | some dp0 =>
      rw [hg] at hp
      dsimp only at hp
      rcases mem_objDelete_ne _ _ _ hp with ⟨hmem, hne⟩
      cases hc : convertDatePartsToISOString (unwrapDateParts dp0) with
      | none =>
          rw [hc] at hmem
          rcases (nnxFields_iff fs).mp h p hmem with hk | hv
          · exact absurd hk hne
          · exact hv
      | some iso =>
          rw [hc] at hmem
          rcases mem_objSet _ _ _ _ hmem with hm | hm
          · rcases (nnxFields_iff fs).mp h p hm with hk | hv
            · exact absurd hk hne
            · exact hv
          · subst hm
            rfl

/-- One named-date-field rewrite keeps every field value `nnx`. -/
theorem nnx_dateFieldStep (fs : List (String × Json)) (field : String)
    (h : ∀ p ∈ fs, nnx p.2 = true) :
    ∀ p ∈ dateFieldStep fs field, nnx p.2 = true := by
  intro p hp
  unfold dateFieldStep at hp
  cases hg : objGet fs field with
  | none =>
      rw [hg] at hp
      exact h p hp
  | some v =>
      rw [hg] at hp
      dsimp only at hp
      split at hp
      · cases hq : jsGetProp v "date-parts" with
        | none =>
            rw [hq] at hp
            exact h p hp
        | some dp0 =>
            rw [hq] at hp
            dsimp only at hp
            split at hp
            · cases hc :
                  convertDatePartsToISOString (unwrapDateParts dp0) with
              | none =>
                  rw [hc] at hp
                  exact h p (mem_objDelete _ _ _ hp)
              | some iso =>
                  rw [hc] at hp
                  rcases mem_objSet _ _ _ _ hp with hm | hm
                  · exact h p hm
                  · subst hm
                    rfl
            · exact h p hp
      · exact h p hp

/-- The whole fold over the seven date fields keeps every value `nnx`. -/
theorem nnx_foldl_dateFieldStep (names : List String)
    (fs : List (String × Json)) (h : ∀ p ∈ fs, nnx p.2 = true) :
    ∀ p ∈ names.foldl dateFieldStep fs, nnx p.2 = true := by
  induction names generalizing fs with
  | nil => exact h
  | cons f r ih =>
      exact ih (dateFieldStep fs f) (nnx_dateFieldStep fs f h)

/-- The license rewrite keeps every field value `nnx`. -/
theorem nnx_phaseLicense (fs : List (String × Json))
    (h : ∀ p ∈ fs, nnx p.2 = true) :
    ∀ p ∈ phaseLicense fs, nnx p.2 = true := by
  intro p hp
  unfold phaseLicense at hp
  cases hg : objGet fs "license" with
  | none =>
      rw [hg] at hp
      exact h p hp
  | some v =>
      rw [hg] at hp
      cases v with
      | arr es =>
          dsimp only at hp
          rcases mem_objSet _ _ _ _ hp with hm | hm
          · exact h p hm
          · subst hm
            show nnxList (es.map licenseEntryFix) = true
            have hes : nnxList es = true :=
              h ("license", .arr es) (objGet_mem _ _ _ hg)
            rw [nnxList_iff] at hes ⊢
            intro x hx
            rcases List.mem_map.mp hx with ⟨e, he, rfl⟩
            refine ⟨?_, nnx_licenseEntryFix e (hes e he).2⟩
            rw [licenseEntryFix_isArr]
            exact (hes e he).1
      | null => exact h p hp
      | bool b => exact h p hp
      | num n => exact h p hp
      | str s => exact h p hp
      | obj o => exact h p hp

/-- After the three rewrites of one object, every remaining field value
satisfies `nnx`: the exempt `date-parts` value is gone, and every inserted
value is an ISO string or a repaired license array. -/
theorem nnx_of_mem_dateRewrites (fs : List (String × Json))
    (h : nnxFields fs = true) :
    ∀ p ∈ dateRewrites fs, nnx p.2 = true := by
  unfold dateRewrites
  exact nnx_phaseLicense _
    (nnx_foldl_dateFieldStep _ _ (nnx_phaseDateParts fs h))

/-- The predicate under `noNested`, named for reuse. -/
theorem noNested_def (v : Json) :
    noNested v = jsonOK (fun _ => true) (fun l => l.all (fun x => !x.isArr)) v :=
  rfl

/-- With the exempt `date-parts` values consumed, the date pass yields a
value with no directly nested array, provided the fuel exceeds the value's
depth (the wrapper always supplies such fuel). -/
theorem processDateFieldsF_noNested : ∀ (n : Nat) (v : Json),
    nnx v = true → jdepth v < n →
    noNested (processDateFieldsF n v) = true := by
  intro n
  induction n with
  | zero =>
      intro v _ hd
      exact absurd hd (by omega)
  | succ n ih =>
      intro v hx hd
      cases v with
      | null => rfl
      | bool b => rfl
      | num m => rfl
      | str s => rfl
      | arr l =>
          have hl : ∀ x ∈ l, x.isArr = false ∧ nnx x = true :=
            (nnxList_iff l).mp hx
          have hdl : ∀ x ∈ l, jdepth x < n := by
            intro x hm
            have h1 := jdepth_le_of_mem_list l x hm
            have h2 : jdepth (Json.arr l) < n + 1 := hd
            simp only [jdepth] at h2
            omega
          show noNested (.arr (l.map (processDateFieldsF n))) = true
          rw [noNested_def]
          simp only [jsonOK, Bool.and_eq_true]
          constructor
          · rw [List.all_eq_true]
            intro x hm
            rcases List.mem_map.mp hm with ⟨y, hy, rfl⟩
            rw [Bool.not_eq_true', processDateFieldsF_isArr]
            exact (hl y hy).1
          · rw [jsonOKList_iff]
            intro x hm
            rcases List.mem_map.mp hm with ⟨y, hy, rfl⟩
            exact ih y (hl y hy).2 (hdl y hy)
      | obj fs =>
          have hx' : nnxFields fs = true := hx
          show noNested
            (.obj ((dateRewrites fs).map
              (fun p => (p.1, processDateFieldsF n p.2)))) = true
          rw [noNested_def]
          simp only [jsonOK, Bool.and_eq_true]
          refine ⟨trivial, ?_⟩
          rw [jsonOKFields_iff]
          intro p hp
          rcases List.mem_map.mp hp with ⟨q, hq, rfl⟩
          have h1 : nnx q.2 = true := nnx_of_mem_dateRewrites fs hx' q hq
          have h2 : jdepth q.2 < n := by
            have ha := jdepth_le_of_mem_fields _ q hq
            have hb := jdepthFields_dateRewrites_le fs
            have hc : jdepth (Json.obj fs) < n + 1 := hd
            simp only [jdepth] at hc
            omega
          exact ih q.2 h1 h2

/-! ## The flattening pass establishes `nnx` on depth-two inputs -/

theorem nnxList_append (a b : List Json) :
    nnxList (a ++ b) = (nnxList a && nnxList b) := by
  induction a with
  | nil => simp [nnxList]
  | cons x xs ih => simp [nnxList, ih, Bool.and_assoc]

theorem nestList0_of_nestList1 (l : List Json)
    (ha : l.any Json.isArr = false) (h : nestList1 l = true) :
    nestList0 l = true := by
  induction l with
  | nil => rfl
  | cons x xs ih =>
      simp only [List.any_cons, Bool.or_eq_false_iff] at ha
      cases x with
      | arr ys => simp [Json.isArr] at ha
      | obj fs =>
          rw [nestList0]
          rw [nestList1] at h
          rw [Bool.and_eq_true] at h ⊢
          exact ⟨h.1, ih ha.2 h.2⟩
      | null =>
          rw [nestList0]
          rw [nestList1] at h
          exact ih ha.2 h
      | bool b =>
          rw [nestList0]
          rw [nestList1] at h
          exact ih ha.2 h
      | num n =>
          rw [nestList0]
          rw [nestList1] at h
          exact ih ha.2 h
      | str s =>
          rw [nestList0]
          rw [nestList1] at h
          exact ih ha.2 h

mutual

/-- Flattening a value whose arrays are nested at most two deep leaves no
directly nested array outside `date-parts` values. -/
theorem flattenJ_nnx : ∀ (v : Json) (pk : Option String),
    pk ≠ some "date-parts" → nestLe2 v = true → nnx (flattenJ pk v) = true
  | .null, pk => by intro _ _; rfl
  | .bool b, pk => by intro _ _; rfl
  | .num n, pk => by intro _ _; rfl
  | .str s, pk => by intro _ _; rfl
  | .obj fs, pk => by
      intro _ h
      rw [nestLe2] at h
      show nnx (.obj (flattenFields fs)) = true
      rw [nnx]
      exact flattenFields_nnx fs h
  | .arr l, pk => by
      intro hpk h
      rw [nestLe2] at h
      show nnx (flattenJ pk (.arr l)) = true
      rw [flattenJ.eq_def]
      by_cases ha : l.any Json.isArr
      · simp only [ha, if_true, if_neg hpk]
        rw [nnx]
        exact flattenConcat_nnx l h
      · simp only [ha, Bool.false_eq_true, if_false]
        rw [nnx]
        exact flattenMap_nnx l (nestList0_of_nestList1 l
          (Bool.not_eq_true _ ▸ ha) h)

/-- Concatenating one level of a depth-two array yields `nnx` elements. -/
theorem flattenConcat_nnx : ∀ (l : List Json),
    nestList1 l = true → nnxList (flattenConcat l) = true
  | [] => by intro _; rfl
  | Json.arr ys :: xs => by
      intro h
      rw [nestList1, Bool.and_eq_true] at h
      rw [flattenConcat, nnxList_append, Bool.and_eq_true]
      exact ⟨flattenMap_nnx ys h.1, flattenConcat_nnx xs h.2⟩
  | Json.obj fs :: xs => by
      intro h
      rw [nestList1, Bool.and_eq_true] at h
      rw [flattenConcat, nnxList, Bool.and_eq_true, Bool.and_eq_true]
      refine ⟨⟨by rw [flattenJ_isArr]; rfl, ?_⟩, flattenConcat_nnx xs h.2⟩
      exact flattenJ_nnx (.obj fs) none (by simp) (by rw [nestLe2]; exact h.1)
  | Json.null :: xs => by
      intro h
      rw [nestList1] at h
      rw [flattenConcat, nnxList, Bool.and_eq_true, Bool.and_eq_true]
      exact ⟨⟨rfl, rfl⟩, flattenConcat_nnx xs h⟩
  | Json.bool b :: xs => by
      intro h
      rw [nestList1] at h
      rw [flattenConcat, nnxList, Bool.and_eq_true, Bool.and_eq_true]
      exact ⟨⟨rfl, rfl⟩, flattenConcat_nnx xs h⟩
  | Json.num n :: xs => by
      intro h
      rw [nestList1] at h
      rw [flattenConcat, nnxList, Bool.and_eq_true, Bool.and_eq_true]
      exact ⟨⟨rfl, rfl⟩, flattenConcat_nnx xs h⟩
  | Json.str s :: xs => by
      intro h
      rw [nestList1] at h
      rw [flattenConcat, nnxList, Bool.and_eq_true, Bool.and_eq_true]
      exact ⟨⟨rfl, rfl⟩, flattenConcat_nnx xs h⟩

/-- Flattening the items of an array with no nested arrays yields `nnx`
elements. -/
theorem flattenMap_nnx : ∀ (l : List Json),
    nestList0 l = true → nnxList (flattenMap l) = true
  | [] => by intro _; rfl
  | Json.arr ys :: xs => by
      intro h
      rw [nestList0] at h
      exact absurd h (by simp)
  | Json.obj fs :: xs => by
      intro h
      rw [nestList0, Bool.and_eq_true] at h
      rw [flattenMap, nnxList, Bool.and_eq_true, Bool.and_eq_true]
      refine ⟨⟨by rw [flattenJ_isArr]; rfl, ?_⟩, flattenMap_nnx xs h.2⟩
      exact flattenJ_nnx (.obj fs) none (by simp) (by rw [nestLe2]; exact h.1)
  | Json.null :: xs => by
      intro h
      rw [nestList0] at h
      rw [flattenMap, nnxList, Bool.and_eq_true, Bool.and_eq_true]
      exact ⟨⟨rfl, rfl⟩, flattenMap_nnx xs h⟩
  | Json.bool b :: xs => by
      intro h
      rw [nestList0] at h
      rw [flattenMap, nnxList, Bool.and_eq_true, Bool.and_eq_true]
      exact ⟨⟨rfl, rfl⟩, flattenMap_nnx xs h⟩
  | Json.num n :: xs => by
      intro h
      rw [nestList0] at h
      rw [flattenMap, nnxList, Bool.and_eq_true, Bool.and_eq_true]
      exact ⟨⟨rfl, rfl⟩, flattenMap_nnx xs h⟩
  | Json.str s :: xs => by
      intro h
      rw [nestList0] at h
      rw [flattenMap, nnxList, Bool.and_eq_true, Bool.and_eq_true]
      exact ⟨⟨rfl, rfl⟩, flattenMap_nnx xs h⟩

/-- Flattening every field value, with `date-parts` values exempt. -/
theorem flattenFields_nnx : ∀ (fs : List (String × Json)),
    nestFields fs = true → nnxFields (flattenFields fs) = true
  | [] => by intro _; rfl
  | (k, v) :: r => by
      intro h
      rw [nestFields, Bool.and_eq_true] at h
      rw [flattenFields, nnxFields, Bool.and_eq_true]
      refine ⟨?_, flattenFields_nnx r h.2⟩
      by_cases hk : k = "date-parts"
      · simp [hk]
      · rw [Bool.or_eq_true]
        right
        exact flattenJ_nnx v (some k) (by simp [hk]) h.1

end

/-! ## Size induction and membership lemmas for the remaining passes -/

theorem json_size_induction (P : Json → Prop)
    (step : ∀ v, (∀ w, sizeOf w < sizeOf v → P w) → P v) (v : Json) : P v :=
  step v (fun w _ => json_size_induction P step w)
termination_by sizeOf v
decreasing_by assumption

theorem sizeOf_lt_of_mem_arr {l : List Json} {x : Json} (h : x ∈ l) :
    sizeOf x < sizeOf (Json.arr l) := by
  have := List.sizeOf_lt_of_mem h
  simp only [Json.arr.sizeOf_spec]
  omega

theorem sizeOf_lt_of_mem_obj {fs : List (String × Json)} {p : String × Json}
    (h : p ∈ fs) : sizeOf p.2 < sizeOf (Json.obj fs) := by
  have h1 := List.sizeOf_lt_of_mem h
  have h2 : sizeOf p.2 < sizeOf p := by
    obtain ⟨k, v⟩ := p
    simp only [Prod.mk.sizeOf_spec]
    omega
  simp only [Json.obj.sizeOf_spec]
  omega

theorem mem_cleanList (l : List Json) (x : Json) (h : x ∈ cleanList l) :
    ∃ y ∈ l, x = cleanNullValues y := by
  induction l with
  | nil => simp [cleanList] at h
  | cons y ys ih =>
      rw [cleanList] at h
      by_cases hy : y = Json.null
      · rw [if_pos hy] at h
        rcases ih h with ⟨z, hz, rfl⟩
        exact ⟨z, by simp [hz], rfl⟩
      · rw [if_neg hy] at h
        rcases List.mem_cons.mp h with h' | h'
        · exact ⟨y, by simp, h'⟩
        · rcases ih h' with ⟨z, hz, rfl⟩
          exact ⟨z, by simp [hz], rfl⟩

theorem mem_cleanFields (fs : List (String × Json)) (p : String × Json)
    (h : p ∈ cleanFields fs) :
    (∃ q ∈ fs, p = (q.1, cleanNullValues q.2)) ∨ p.2 = Json.str "" := by
  induction fs with
  | nil => simp [cleanFields] at h
  | cons q qs ih =>
      obtain ⟨k, v⟩ := q
      rw [cleanFields] at h
      by_cases hv : v = Json.null
      · rw [if_pos hv] at h
        by_cases hk : isSentinelKey k = true
        · rw [if_pos hk] at h
          rcases List.mem_cons.mp h with h' | h'
          · right
            rw [h']
          · rcases ih h' with ⟨r, hr, rfl⟩ | h''
            · exact Or.inl ⟨r, by simp [hr], rfl⟩
            · exact Or.inr h''
        · rw [if_neg hk] at h
          rcases ih h with ⟨r, hr, rfl⟩ | h''
          · exact Or.inl ⟨r, by simp [hr], rfl⟩
          · exact Or.inr h''
      · rw [if_neg hv] at h
        rcases List.mem_cons.mp h with h' | h'
        · exact Or.inl ⟨(k, v), by simp, h'⟩
        · rcases ih h' with ⟨r, hr, rfl⟩ | h''
          · exact Or.inl ⟨r, by simp [hr], rfl⟩
          · exact Or.inr h''

theorem mem_rkdList (l : List Json) (x : Json) (h : x ∈ rkdList l) :
    ∃ y ∈ l, x = replaceKeyDashes y := by
  induction l with
  | nil => simp [rkdList] at h
  | cons y ys ih =>
      rw [rkdList] at h
      rcases List.mem_cons.mp h with h' | h'
      · exact ⟨y, by simp, h'⟩
      · rcases ih h' with ⟨z, hz, rfl⟩
        exact ⟨z, by simp [hz], rfl⟩

theorem mem_rkdFields (fs : List (String × Json))
    (acc : List (String × Json)) (p : String × Json)
    (h : p ∈ rkdFields acc fs) :
    p ∈ acc ∨ ∃ q ∈ fs, p = (replaceDashes q.1, replaceKeyDashes q.2) := by
  induction fs generalizing acc with
  | nil => exact Or.inl h
  | cons q qs ih =>
      obtain ⟨k, v⟩ := q
      rw [rkdFields] at h
      rcases ih _ h with h' | ⟨r, hr, rfl⟩
      · rcases mem_objSet _ _ _ _ h' with h'' | h''
        · exact Or.inl h''
        · exact Or.inr ⟨(k, v), by simp, h''⟩
      · exact Or.inr ⟨r, by simp [hr], rfl⟩

theorem mem_yearFix (fs : List (String × Json)) (p : String × Json)
    (h : p ∈ yearFix fs) :
    p ∈ fs ∨ (∃ s, p.2 = Json.str s) ∨ ∃ m, p.2 = Json.num m := by
  unfold yearFix at h
  cases hg : objGet fs "year" with
  | none =>
      rw [hg] at h
      exact Or.inl h
  | some v =>
      rw [hg] at h
      cases v with
      | str s =>
          dsimp only at h
          split at h
          · rcases mem_objSet _ _ _ _ (mem_objDelete _ _ _ h) with h' | h'
            · exact Or.inl h'
            · subst h'
              exact Or.inr (Or.inl ⟨s, rfl⟩)
          · split at h
            · rcases mem_objSet _ _ _ _ h with h' | h'
              · exact Or.inl h'
              · subst h'
                exact Or.inr (Or.inr ⟨_, rfl⟩)
            · rcases mem_objSet _ _ _ _ (mem_objDelete _ _ _ h) with h' | h'
              · exact Or.inl h'
              · subst h'
                exact Or.inr (Or.inl ⟨s, rfl⟩)
      | null => exact Or.inl h
      | bool b => exact Or.inl h
      | num n => exact Or.inl h
      | arr l => exact Or.inl h
      | obj o => exact Or.inl h

/-! ## `noNested` is preserved by the later passes, and makes the
flattening and corrective passes the identity -/

theorem noNested_arr (l : List Json) :
    noNested (.arr l) = true ↔
      (∀ x ∈ l, x.isArr = false) ∧ ∀ x ∈ l, noNested x = true := by
  rw [noNested_def]
  simp only [jsonOK, Bool.and_eq_true, List.all_eq_true, Bool.not_eq_true']
  rw [jsonOKList_iff]
  exact Iff.rfl

theorem noNested_obj (fs : List (String × Json)) :
    noNested (.obj fs) = true ↔ ∀ p ∈ fs, noNested p.2 = true := by
  rw [noNested_def]
  simp only [jsonOK, Bool.and_eq_true, true_and]
  rw [jsonOKFields_iff]
  exact Iff.rfl

theorem cleanNullValues_noNested : ∀ v,
    noNested v = true → noNested (cleanNullValues v) = true := by
  refine json_size_induction _ ?_
  intro v IH h
  cases v with
  | arr l =>
      rw [noNested_arr] at h
      show noNested (.arr (cleanList l)) = true
      rw [noNested_arr]
      constructor
      · intro x hx
        rcases mem_cleanList l x hx with ⟨y, hy, rfl⟩
        rw [cleanNullValues_isArr]
        exact h.1 y hy
      · intro x hx
        rcases mem_cleanList l x hx with ⟨y, hy, rfl⟩
        exact IH y (sizeOf_lt_of_mem_arr hy) (h.2 y hy)
  | obj fs =>
      rw [noNested_obj] at h
      show noNested (.obj (cleanFields fs)) = true
      rw [noNested_obj]
      intro p hp
      rcases mem_cleanFields fs p hp with ⟨q, hq, rfl⟩ | h''
      · exact IH q.2 (sizeOf_lt_of_mem_obj hq) (h q hq)
      · rw [h'']
        rfl
  | null => exact h
  | bool b => exact h
  | num n => exact h
  | str s => exact h

theorem replaceKeyDashes_noNested : ∀ v,
    noNested v = true → noNested (replaceKeyDashes v) = true := by
  refine json_size_induction _ ?_
  intro v IH h
  cases v with
  | arr l =>
      rw [noNested_arr] at h
      show noNested (.arr (rkdList l)) = true
      rw [noNested_arr]
      constructor
      · intro x hx
        rcases mem_rkdList l x hx with ⟨y, hy, rfl⟩
        rw [replaceKeyDashes_isArr]
        exact h.1 y hy
      · intro x hx
        rcases mem_rkdList l x hx with ⟨y, hy, rfl⟩
        exact IH y (sizeOf_lt_of_mem_arr hy) (h.2 y hy)
  | obj fs =>
      rw [noNested_obj] at h
      show noNested (.obj (rkdFields [] fs)) = true
      rw [noNested_obj]
      intro p hp
      rcases mem_rkdFields fs [] p hp with h' | ⟨q, hq, rfl⟩
      · simp at h'
      · exact IH q.2 (sizeOf_lt_of_mem_obj hq) (h q hq)
  | null => exact h
  | bool b => exact h
  | num n => exact h
  | str s => exact h

theorem fixBigQueryIssuesF_str (n : Nat) (s : String) :
    fixBigQueryIssuesF n (.str s) = .str s := by
  cases n <;> rfl

theorem fixBigQueryIssuesF_num (n : Nat) (m : Int) :
    fixBigQueryIssuesF n (.num m) = .num m := by
  cases n <;> rfl

theorem fixBigQueryIssuesF_noNested : ∀ (n : Nat) (v : Json),
    noNested v = true → noNested (fixBigQueryIssuesF n v) = true := by
  intro n
  induction n with
  | zero => intro v h; exact h
  | succ n ih =>
      intro v h
      cases v with
      | arr l =>
          rw [noNested_arr] at h
          show noNested (.arr (l.map (fixBigQueryIssuesF n))) = true
          rw [noNested_arr]
          constructor
          · intro x hx
            rcases List.mem_map.mp hx with ⟨y, hy, rfl⟩
            rw [fixBigQueryIssuesF_isArr]
            exact h.1 y hy
          · intro x hx
            rcases List.mem_map.mp hx with ⟨y, hy, rfl⟩
            exact ih y (h.2 y hy)
      | obj fs =>
          rw [noNested_obj] at h
          show noNested (.obj ((yearFix fs).map
            (fun p => (p.1, fixBigQueryIssuesF n p.2)))) = true
          rw [noNested_obj]
          intro p hp
          rcases List.mem_map.mp hp with ⟨q, hq, rfl⟩
          rcases mem_yearFix fs q hq with h' | ⟨s, hs⟩ | ⟨m, hm⟩
          · exact ih q.2 (h q h')
          · rw [hs, fixBigQueryIssuesF_str]
            rfl
          · rw [hm, fixBigQueryIssuesF_num]
            rfl
      | null => exact h
      | bool b => exact h
      | num m => exact h
      | str s => exact h

theorem lastFixMap_eq (l : List Json) (h : ∀ x ∈ l, lastFixV x = x) :
    lastFixMap l = l := by
  induction l with
  | nil => rfl
  | cons x xs ih =>
      rw [lastFixMap, h x (by simp), ih (fun y hy => h y (by simp [hy]))]

theorem lastFixFields_eq (fs : List (String × Json))
    (h : ∀ p ∈ fs, lastFixV p.2 = p.2) : lastFixFields fs = fs := by
  induction fs with
  | nil => rfl
  | cons p r ih =>
      obtain ⟨k, v⟩ := p
      rw [lastFixFields, h (k, v) (by simp),
        ih (fun q hq => h q (by simp [hq]))]

/-- On a record with no nested array, the corrective replacer is the
identity. -/
theorem lastFixV_eq_self : ∀ v, noNested v = true → lastFixV v = v := by
  refine json_size_induction _ ?_
  intro v IH h
  cases v with
  | arr l =>
      rw [noNested_arr] at h
      have ha : l.any Json.isArr = false := by
        rw [List.any_eq_false]
        intro x hx
        simp [h.1 x hx]
      show lastFixV (.arr l) = .arr l
      rw [lastFixV, ha]
      simp only [Bool.false_eq_true, if_false]
      rw [lastFixMap_eq l
        (fun x hx => IH x (sizeOf_lt_of_mem_arr hx) (h.2 x hx))]
  | obj fs =>
      rw [noNested_obj] at h
      show lastFixV (.obj fs) = .obj fs
      rw [lastFixV]
      rw [lastFixFields_eq fs
        (fun p hp => IH p.2 (sizeOf_lt_of_mem_obj hp) (h p hp))]
  | null => rfl
  | bool b => rfl
  | num n => rfl
  | str s => rfl

/-! ## On a normalized record every pass is the identity -/

theorem list_map_eq_self {α : Type} (l : List α) (f : α → α)
    (h : ∀ x ∈ l, f x = x) : l.map f = l := by
  induction l with
  | nil => rfl
  | cons x xs ih =>
      rw [List.map, h x (by simp), ih (fun y hy => h y (by simp [hy]))]

theorem flattenMap_eq (l : List Json) (h : ∀ x ∈ l, flattenJ none x = x) :
    flattenMap l = l := by
  induction l with
  | nil => rfl
  | cons x xs ih =>
      rw [flattenMap, h x (by simp), ih (fun y hy => h y (by simp [hy]))]

theorem flattenFields_eq (fs : List (String × Json))
    (h : ∀ p ∈ fs, flattenJ (some p.1) p.2 = p.2) : flattenFields fs = fs := by
  induction fs with
  | nil => rfl
  | cons p r ih =>
      obtain ⟨k, v⟩ := p
      rw [flattenFields, h (k, v) (by simp),
        ih (fun q hq => h q (by simp [hq]))]

/-- Flattening is the identity on values with no nested array. -/
theorem flattenJ_eq_self : ∀ v, noNested v = true →
    ∀ pk, flattenJ pk v = v := by
  refine json_size_induction _ ?_
  intro v IH h pk
  cases v with
  | arr l =>
      rw [noNested_arr] at h
      have ha : l.any Json.isArr = false := by
        rw [List.any_eq_false]
        intro x hx
        simp [h.1 x hx]
      show flattenJ pk (.arr l) = .arr l
      rw [flattenJ.eq_def]
      simp only [ha, Bool.false_eq_true, if_false]
      rw [flattenMap_eq l
        (fun x hx => IH x (sizeOf_lt_of_mem_arr hx) (h.2 x hx) none)]
  | obj fs =>
      rw [noNested_obj] at h
      show Json.obj (flattenFields fs) = .obj fs
      rw [flattenFields_eq fs
        (fun p hp => IH p.2 (sizeOf_lt_of_mem_obj hp) (h p hp) (some p.1))]
  | null => rfl
  | bool b => rfl
  | num n => rfl
  | str s => rfl

theorem noDatePartsKey_arr (l : List Json) :
    noDatePartsKey (.arr l) = true ↔ ∀ x ∈ l, noDatePartsKey x = true := by
  unfold noDatePartsKey
  simp only [jsonOK, Bool.and_eq_true, true_and]
  rw [jsonOKList_iff]

theorem noDatePartsKey_obj (fs : List (String × Json)) :
    noDatePartsKey (.obj fs) = true ↔
      (∀ p ∈ fs, p.1 ≠ "date-parts") ∧
        ∀ p ∈ fs, noDatePartsKey p.2 = true := by
  unfold noDatePartsKey
  simp only [jsonOK, Bool.and_eq_true, List.all_eq_true, decide_eq_true_eq]
  rw [jsonOKFields_iff]

theorem phaseDateParts_eq (fs : List (String × Json))
    (h : ∀ p ∈ fs, p.1 ≠ "date-parts") : phaseDateParts fs = fs := by
  unfold phaseDateParts
  rw [objGet_eq_none fs "date-parts" h]

theorem dateFieldStep_eq (fs : List (String × Json)) (field : String)
    (h : ∀ p ∈ fs, noDatePartsKey p.2 = true) :
    dateFieldStep fs field = fs := by
  unfold dateFieldStep
  cases hg : objGet fs field with
  | none => rfl
  | some v =>
      dsimp only
      split
      · cases v with
        | obj vfs =>
            have hv := (noDatePartsKey_obj vfs).mp
              (h (field, .obj vfs) (objGet_mem _ _ _ hg))
            show (match jsGetProp (Json.obj vfs) "date-parts" with
              | none => fs
              | some dp0 => _) = fs
            rw [show jsGetProp (Json.obj vfs) "date-parts" =
              none from objGet_eq_none vfs "date-parts" hv.1]
        | arr l => rfl
        | null => rfl
        | bool b => rfl
        | num n => rfl
        | str s => rfl
      · rfl

theorem foldl_dateFieldStep_eq (names : List String)
    (fs : List (String × Json)) (h : ∀ p ∈ fs, noDatePartsKey p.2 = true) :
    names.foldl dateFieldStep fs = fs := by
  induction names with
  | nil => rfl
  | cons f r ih => rw [List.foldl, dateFieldStep_eq fs f h, ih]

theorem licenseEntryFix_eq (e : Json) (h : noDatePartsKey e = true) :
    licenseEntryFix e = e := by
  unfold licenseEntryFix
  split
  · cases hs : jsGetProp e "start" with
    | none => rfl
    | some st =>
        dsimp only
        split
        · cases hp : jsGetProp st "date-parts" with
          | none => rfl
          | some dp0 =>
              exfalso
              cases st with
              | obj sfs =>
                  cases e with
                  | obj efs =>
                      have he := (noDatePartsKey_obj efs).mp h
                      have hst : noDatePartsKey (.obj sfs) = true :=
                        he.2 ("start", .obj sfs) (objGet_mem _ _ _ hs)
                      have := (noDatePartsKey_obj sfs).mp hst
                      rw [show jsGetProp (Json.obj sfs) "date-parts" = none from
                        objGet_eq_none sfs "date-parts" this.1] at hp
                      exact Option.noConfusion hp
                  | null => exact Option.noConfusion hs
                  | bool b => exact Option.noConfusion hs
                  | num n => exact Option.noConfusion hs
                  | str s => exact Option.noConfusion hs
                  | arr l => exact Option.noConfusion hs
              | null => exact Option.noConfusion hp
              | bool b => exact Option.noConfusion hp
              | num n => exact Option.noConfusion hp
              | str s => exact Option.noConfusion hp
              | arr l => exact Option.noConfusion hp
        · rfl
  · rfl

theorem phaseLicense_eq (fs : List (String × Json))
    (h : ∀ p ∈ fs, noDatePartsKey p.2 = true) : phaseLicense fs = fs := by
  unfold phaseLicense
  cases hg : objGet fs "license" with
  | none => rfl
  | some v =>
      cases v with
      | arr es =>
          dsimp only
          have hes : ∀ e ∈ es, noDatePartsKey e = true :=
            (noDatePartsKey_arr es).mp
              (h ("license", .arr es) (objGet_mem _ _ _ hg))
          rw [list_map_eq_self es licenseEntryFix
            (fun e he => licenseEntryFix_eq e (hes e he)),
            objSet_self fs "license" (.arr es) hg]
      | null => rfl
      | bool b => rfl
      | num n => rfl
      | str s => rfl
      | obj o => rfl

theorem dateRewrites_eq (fs : List (String × Json))
    (hk : ∀ p ∈ fs, p.1 ≠ "date-parts")
    (hv : ∀ p ∈ fs, noDatePartsKey p.2 = true) : dateRewrites fs = fs := by
  unfold dateRewrites
  rw [phaseDateParts_eq fs hk, foldl_dateFieldStep_eq _ fs hv,
    phaseLicense_eq fs hv]

/-- The date pass is the identity on records with no `date-parts` field. -/
theorem processDateFieldsF_eq_self : ∀ (n : Nat) (v : Json),
    noDatePartsKey v = true → processDateFieldsF n v = v := by
  intro n
  induction n with
  | zero => intro v _; rfl
  | succ n ih =>
      intro v h
      cases v with
      | arr l =>
          show Json.arr (l.map (processDateFieldsF n)) = .arr l
          rw [list_map_eq_self l (processDateFieldsF n)
            (fun x hx => ih x ((noDatePartsKey_arr l).mp h x hx))]
      | obj fs =>
          have h' := (noDatePartsKey_obj fs).mp h
          show Json.obj ((dateRewrites fs).map
            (fun p => (p.1, processDateFieldsF n p.2))) = .obj fs
          rw [dateRewrites_eq fs h'.1 h'.2]
          have hpt : ∀ p ∈ fs, (p.1, processDateFieldsF n p.2) = p := by
            intro p hp
            rw [ih p.2 (h'.2 p hp)]
          rw [list_map_eq_self fs _ hpt]
      | null => rfl
      | bool b => rfl
      | num m => rfl
      | str s => rfl

theorem yearNotString_obj_parts (fs : List (String × Json))
    (h : yearNotString (.obj fs) = true) :
    (∀ s, objGet fs "year" ≠ some (Json.str s)) ∧
      ∀ p ∈ fs, yearNotString p.2 = true := by
  unfold yearNotString at h
  simp only [jsonOK, Bool.and_eq_true] at h
  constructor
  · intro s hs
    rw [hs] at h
    simp at h
  · exact (jsonOKFields_iff _ _ fs).mp h.2

theorem yearNotString_arr_parts (l : List Json)
    (h : yearNotString (.arr l) = true) :
    ∀ x ∈ l, yearNotString x = true := by
  unfold yearNotString at h
  simp only [jsonOK, Bool.and_eq_true, true_and] at h
  exact (jsonOKList_iff _ _ l).mp h

theorem yearFix_eq (fs : List (String × Json))
    (h : ∀ s, objGet fs "year" ≠ some (Json.str s)) : yearFix fs = fs := by
  unfold yearFix
  cases hg : objGet fs "year" with
  | none => rfl
  | some v =>
      cases v with
      | str s => exact absurd hg (h s)
      | null => rfl
      | bool b => rfl
      | num n => rfl
      | arr l => rfl
      | obj o => rfl

/-- The year pass is the identity on records with no string-valued
`year`. -/
theorem fixBigQueryIssuesF_eq_self : ∀ (n : Nat) (v : Json),
    yearNotString v = true → fixBigQueryIssuesF n v = v := by
  intro n
  induction n with
  | zero => intro v _; rfl
  | succ n ih =>
      intro v h
      cases v with
      | arr l =>
          show Json.arr (l.map (fixBigQueryIssuesF n)) = .arr l
          rw [list_map_eq_self l (fixBigQueryIssuesF n)
            (fun x hx => ih x (yearNotString_arr_parts l h x hx))]
      | obj fs =>
          have h' := yearNotString_obj_parts fs h
          show Json.obj ((yearFix fs).map
            (fun p => (p.1, fixBigQueryIssuesF n p.2))) = .obj fs
          rw [yearFix_eq fs h'.1]
          have hpt : ∀ p ∈ fs, (p.1, fixBigQueryIssuesF n p.2) = p := by
            intro p hp
            rw [ih p.2 (h'.2 p hp)]
          rw [list_map_eq_self fs _ hpt]
      | null => rfl
      | bool b => rfl
      | num m => rfl
      | str s => rfl

theorem noNulls_arr_parts (l : List Json) (h : noNulls (.arr l) = true) :
    (∀ x ∈ l, x ≠ Json.null) ∧ ∀ x ∈ l, noNulls x = true := by
  unfold noNulls at h
  simp only [jsonOK, Bool.and_eq_true, List.all_eq_true,
    decide_eq_true_eq] at h
  exact ⟨h.1, (jsonOKList_iff _ _ l).mp h.2⟩

theorem noNulls_obj_parts (fs : List (String × Json))
    (h : noNulls (.obj fs) = true) :
    (∀ p ∈ fs, p.2 ≠ Json.null) ∧ ∀ p ∈ fs, noNulls p.2 = true := by
  unfold noNulls at h
  simp only [jsonOK, Bool.and_eq_true, List.all_eq_true,
    decide_eq_true_eq] at h
  exact ⟨h.1, (jsonOKFields_iff _ _ fs).mp h.2⟩

theorem cleanList_eq (l : List Json) (hn : ∀ x ∈ l, x ≠ Json.null)
    (hid : ∀ x ∈ l, cleanNullValues x = x) : cleanList l = l := by
  induction l with
  | nil => rfl
  | cons x xs ih =>
      rw [cleanList, if_neg (hn x (by simp)), hid x (by simp),
        ih (fun y hy => hn y (by simp [hy]))
          (fun y hy => hid y (by simp [hy]))]

theorem cleanFields_eq (fs : List (String × Json))
    (hn : ∀ p ∈ fs, p.2 ≠ Json.null)
    (hid : ∀ p ∈ fs, cleanNullValues p.2 = p.2) : cleanFields fs = fs := by
  induction fs with
  | nil => rfl
  | cons p r ih =>
      obtain ⟨k, v⟩ := p
      rw [cleanFields, if_neg (hn (k, v) (by simp)), hid (k, v) (by simp),
        ih (fun q hq => hn q (by simp [hq]))
          (fun q hq => hid q (by simp [hq]))]

/-- The null pass is the identity on records with no `null` anywhere. -/
theorem cleanNullValues_eq_self : ∀ v, noNulls v = true →
    cleanNullValues v = v := by
  refine json_size_induction _ ?_
  intro v IH h
  cases v with
  | arr l =>
      have h' := noNulls_arr_parts l h
      show Json.arr (cleanList l) = .arr l
      rw [cleanList_eq l h'.1
        (fun x hx => IH x (sizeOf_lt_of_mem_arr hx) (h'.2 x hx))]
  | obj fs =>
      have h' := noNulls_obj_parts fs h
      show Json.obj (cleanFields fs) = .obj fs
      rw [cleanFields_eq fs h'.1
        (fun p hp => IH p.2 (sizeOf_lt_of_mem_obj hp) (h'.2 p hp))]
  | null => rfl
  | bool b => rfl
  | num n => rfl
  | str s => rfl

theorem keysNormalized_arr_parts (l : List Json)
    (h : keysNormalized (.arr l) = true) :
    ∀ x ∈ l, keysNormalized x = true := by
  unfold keysNormalized at h
  simp only [jsonOK, Bool.and_eq_true, true_and] at h
  exact (jsonOKList_iff _ _ l).mp h

theorem keysNormalized_obj_parts (fs : List (String × Json))
    (h : keysNormalized (.obj fs) = true) :
    nodupKeys fs = true ∧ (∀ p ∈ fs, strContains p.1 "-" = false) ∧
      ∀ p ∈ fs, keysNormalized p.2 = true := by
  unfold keysNormalized at h
  simp only [jsonOK, Bool.and_eq_true, List.all_eq_true,
    Bool.not_eq_true'] at h
  exact ⟨h.1.1, h.1.2, (jsonOKFields_iff _ _ fs).mp h.2⟩

theorem singleton_infix_of_mem {α : Type} (c : α) (l : List α) (h : c ∈ l) :
    [c] <:+: l := by
  induction l with
  | nil => simp at h
  | cons x xs ih =>
      rcases List.mem_cons.mp h with h' | h'
      · subst h'
        exact ⟨[], xs, rfl⟩
      · exact List.infix_cons (ih h')

theorem replaceDashes_eq_self (k : String)
    (h : strContains k "-" = false) : replaceDashes k = k := by
  have hc : ∀ c ∈ k.toList, c ≠ '-' := by
    intro c hcm hceq
    subst hceq
    have : ('-' : Char) :: [] <:+: k.toList := singleton_infix_of_mem _ _ hcm
    unfold strContains at h
    rw [decide_eq_false_iff_not] at h
    exact h this
  show (⟨k.toList.map _⟩ : String) = k
  rw [list_map_eq_self k.toList _ (fun c hcm => if_neg (hc c hcm))]
  rfl

theorem keys_not_contains (r : List (String × Json)) (k : String)
    (h : (r.map Prod.fst).contains k = false) : ∀ p ∈ r, p.1 ≠ k := by
  intro p hp hk
  have h1 : k ∈ r.map Prod.fst := hk ▸ List.mem_map_of_mem Prod.fst hp
  have h2 := List.elem_eq_true_of_mem h1
  simp only [List.contains] at h
  rw [h] at h2
  exact Bool.false_ne_true h2

theorem rkdList_eq (l : List Json)
    (h : ∀ x ∈ l, replaceKeyDashes x = x) : rkdList l = l := by
  induction l with
  | nil => rfl
  | cons x xs ih =>
      rw [rkdList, h x (by simp), ih (fun y hy => h y (by simp [hy]))]

theorem rkdFields_eq : ∀ (fs acc : List (String × Json)),
    nodupKeys fs = true →
    (∀ p ∈ fs, strContains p.1 "-" = false) →
    (∀ p ∈ fs, replaceKeyDashes p.2 = p.2) →
    (∀ p ∈ fs, ∀ q ∈ acc, q.1 ≠ p.1) →
    rkdFields acc fs = acc ++ fs := by
  intro fs
  induction fs with
  | nil =>
      intro acc _ _ _ _
      rw [List.append_nil]
      rfl
  | cons p r ih =>
      intro acc hnd hdash hval hnew
      obtain ⟨k, v⟩ := p
      rw [nodupKeys, Bool.and_eq_true, Bool.not_eq_true'] at hnd
      rw [rkdFields, replaceDashes_eq_self k (hdash (k, v) (by simp)),
        hval (k, v) (by simp),
        objSet_append acc k v
          (fun q hq => hnew (k, v) (by simp) q hq)]
      rw [ih (acc ++ [(k, v)]) hnd.2
        (fun q hq => hdash q (by simp [hq]))
        (fun q hq => hval q (by simp [hq])) ?_]
      · simp
      · intro p hp q hq
        rcases List.mem_append.mp hq with h' | h'
        · exact hnew p (by simp [hp]) q h'
        · simp only [List.mem_singleton] at h'
          subst h'
          exact fun hkp =>
            keys_not_contains r k hnd.1 p hp hkp.symm

/-- The rename pass is the identity on records with duplicate-free,
hyphen-free keys. -/
theorem replaceKeyDashes_eq_self : ∀ v, keysNormalized v = true →
    replaceKeyDashes v = v := by
  refine json_size_induction _ ?_
  intro v IH h
  cases v with
  | arr l =>
      show Json.arr (rkdList l) = .arr l
      rw [rkdList_eq l (fun x hx => IH x (sizeOf_lt_of_mem_arr hx)
        (keysNormalized_arr_parts l h x hx))]
  | obj fs =>
      have h' := keysNormalized_obj_parts fs h
      show Json.obj (rkdFields [] fs) = .obj fs
      rw [rkdFields_eq fs [] h'.1 h'.2.1
        (fun p hp => IH p.2 (sizeOf_lt_of_mem_obj hp) (h'.2.2 p hp))
        (fun p hp q hq => absurd hq (by simp))]
      rw [List.nil_append]
  | null => rfl
  | bool b => rfl
  | num n => rfl
  | str s => rfl

/-! ## Support lemmas for the claim theorems -/

theorem objGet_map_values (fs : List (String × Json)) (g : Json → Json)
    (k : String) :
    objGet (fs.map (fun p => (p.1, g p.2))) k = (objGet fs k).map g := by
  induction fs with
  | nil => rfl
  | cons p r ih =>
      obtain ⟨k₀, v₀⟩ := p
      by_cases h0 : k₀ = k <;> simp [objGet, h0, ih]

theorem processDateFieldsF_str (n : Nat) (s : String) :
    processDateFieldsF n (.str s) = .str s := by
  cases n <;> rfl

theorem fixBigQueryIssuesF_not_str (n : Nat) (v : Json)
    (h : ∀ t, v ≠ Json.str t) : ∀ t, fixBigQueryIssuesF n v ≠ Json.str t := by
  cases n with
  | zero => exact h
  | succ n =>
      cases v with
      | str s => exact absurd rfl (h s)
      | null => intro t ht; exact Json.noConfusion ht
      | bool b => intro t ht; exact Json.noConfusion ht
      | num m => intro t ht; exact Json.noConfusion ht
      | arr l => intro t ht; exact Json.noConfusion ht
      | obj fs => intro t ht; exact Json.noConfusion ht

theorem takeWhile_append_of_all {α : Type} (p : α → Bool)
    (l1 l2 : List α) (h : ∀ x ∈ l1, p x = true) :
    (l1 ++ l2).takeWhile p = l1 ++ l2.takeWhile p := by
  induction l1 with
  | nil => rfl
  | cons x xs ih =>
      simp only [List.cons_append, List.takeWhile_cons, h x (by simp),
        if_true]
      rw [ih (fun y hy => h y (by simp [hy]))]

theorem takeWhile_all {α : Type} (p : α → Bool) (l : List α)
    (h : ∀ x ∈ l, p x = true) : l.takeWhile p = l := by
  induction l with
  | nil => rfl
  | cons x xs ih =>
      simp only [List.takeWhile_cons, h x (by simp), if_true]
      rw [ih (fun y hy => h y (by simp [hy]))]

theorem isDigitCh_not_ws (c : Char) (h : isDigitCh c = true) :
    isWsCh c = false := by
  unfold isDigitCh at h
  rw [Bool.and_eq_true] at h
  have h0 : ('0' : Char) ≤ c := by
    have := h.1
    simpa [decide_eq_true_eq] using this
  unfold isWsCh
  have hne : ∀ w : Char, w < '0' → c ≠ w := by
    intro w hw he
    subst he
    exact absurd h0 (by exact not_le.mpr hw)
  simp only [Bool.or_eq_false_iff]
  refine ⟨⟨⟨?_, ?_⟩, ?_⟩, ?_⟩ <;>
    (rw [beq_eq_false_iff_ne]; exact hne _ (by decide))

/-- A nonempty all-digits string parses: `parseInt` accepts it whole. -/
theorem jsParseIntStr_of_digits (s : String) (h : isAllDigits s = true) :
    jsParseIntStr s = some ((digitsToNat s.toList : Nat) : Int) := by
  unfold isAllDigits at h
  rw [Bool.and_eq_true, Bool.not_eq_true'] at h
  have hall : ∀ x ∈ s.toList, isDigitCh x = true := List.all_eq_true.mp h.2
  unfold jsParseIntStr
  cases hs : s.toList with
  | nil =>
      rw [hs] at h
      simp at h
  | cons c cs =>
      have hc : isDigitCh c = true := hall c (by rw [hs]; simp)
      have hnotws : isWsCh c = false := isDigitCh_not_ws c hc
      have hnotdash : c ≠ '-' := by
        intro he
        rw [he] at hc
        simp [isDigitCh] at hc
      have hnotplus : c ≠ '+' := by
        intro he
        rw [he] at hc
        simp [isDigitCh] at hc
      have hall' : ∀ x ∈ c :: cs, isDigitCh x = true := by
        intro x hx
        exact hall x (by rw [hs]; exact hx)
      simp only [hs, List.dropWhile_cons, hnotws, Bool.false_eq_true,
        if_false, if_neg hnotdash, if_neg hnotplus]
      rw [takeWhile_all isDigitCh (c :: cs) hall']
      simp

/-! ## Counter homomorphisms of the line loop -/

theorem foldl_stepLine_errorCount (debug : Bool) (ls : List LineInput) :
    ∀ st : RunStats, (List.foldl (stepLine debug) st ls).errorCount =
      st.errorCount + (ls.countP LineInput.isMalformed) := by
  induction ls with
  | nil => intro st; simp
  | cons l r ih =>
      intro st
      rw [List.foldl_cons, ih]
      cases l <;> simp [stepLine, List.countP_cons, LineInput.isMalformed] <;>
        omega

theorem foldl_stepLine_processedCount (debug : Bool) (ls : List LineInput) :
    ∀ st : RunStats, (List.foldl (stepLine debug) st ls).processedCount =
      st.processedCount + (ls.countP LineInput.isValid) := by
  induction ls with
  | nil => intro st; simp
  | cons l r ih =>
      intro st
      rw [List.foldl_cons, ih]
      cases l <;> simp [stepLine, List.countP_cons, LineInput.isValid] <;>
        omega

theorem foldl_stepLine_emitted (debug : Bool) (ls : List LineInput) :
    ∀ st : RunStats, (List.foldl (stepLine debug) st ls).emitted =
      st.emitted ++ ls.map emitChunk := by
  induction ls with
  | nil => intro st; simp
  | cons l r ih =>
      intro st
      rw [List.foldl_cons, ih]
      cases l <;> simp [stepLine, emitChunk]

theorem concatAll_append (a b : List String) :
    concatAll (a ++ b) = concatAll a ++ concatAll b := by
  induction a with
  | nil =>
      show concatAll b = "" ++ concatAll b
      rw [String.empty_append]
  | cons x xs ih =>
      show x ++ concatAll (xs ++ b) = (x ++ concatAll xs) ++ concatAll b
      rw [ih, String.append_assoc]

/-! ## The debug flag changes no counter and no emitted chunk -/

theorem foldl_stepLine_debug_agnostic (ls : List LineInput) :
    ∀ st1 st2 : RunStats, st1.emitted = st2.emitted →
      st1.processedCount = st2.processedCount →
      st1.errorCount = st2.errorCount →
      (List.foldl (stepLine true) st1 ls).emitted =
          (List.foldl (stepLine false) st2 ls).emitted ∧
        (List.foldl (stepLine true) st1 ls).processedCount =
          (List.foldl (stepLine false) st2 ls).processedCount ∧
        (List.foldl (stepLine true) st1 ls).errorCount =
          (List.foldl (stepLine false) st2 ls).errorCount := by
  induction ls with
  | nil => intro st1 st2 h1 h2 h3; exact ⟨h1, h2, h3⟩
  | cons l r ih =>
      intro st1 st2 h1 h2 h3
      rw [List.foldl_cons, List.foldl_cons]
      apply ih
      all_goals cases l <;> simp [stepLine, h1, h2, h3]

/-! ## Evaluation equations for the date rewrites -/

theorem phaseDateParts_none (fs : List (String × Json))
    (h : objGet fs "date-parts" = none) : phaseDateParts fs = fs := by
  unfold phaseDateParts
  rw [h]

theorem phaseDateParts_deletes (fs : List (String × Json)) (dp0 : Json)
    (hget : objGet fs "date-parts" = some dp0)
    (hconv : convertDatePartsToISOString (unwrapDateParts dp0) = none) :
    phaseDateParts fs = objDelete fs "date-parts" := by
  unfold phaseDateParts
  rw [hget]
  dsimp only
  rw [hconv]

theorem phaseDateParts_sets (fs : List (String × Json)) (dp0 : Json)
    (iso : String) (hget : objGet fs "date-parts" = some dp0)
    (hconv : convertDatePartsToISOString (unwrapDateParts dp0) = some iso) :
    phaseDateParts fs =
      objDelete (objSet fs "date" (.str iso)) "date-parts" := by
  unfold phaseDateParts
  rw [hget]
  dsimp only
  rw [hconv]

theorem dateFieldStep_none (fs : List (String × Json)) (field : String)
    (h : objGet fs field = none) : dateFieldStep fs field = fs := by
  unfold dateFieldStep
  rw [h]

theorem dateFieldStep_deletes (fs : List (String × Json)) (field : String)
    (v dp0 : Json) (hget : objGet fs field = some v)
    (htr : (v.jsTruthy && v.typeofObject) = true)
    (hdp : jsGetProp v "date-parts" = some dp0)
    (htr2 : dp0.jsTruthy = true)
    (hconv : convertDatePartsToISOString (unwrapDateParts dp0) = none) :
    dateFieldStep fs field = objDelete fs field := by
  unfold dateFieldStep
  rw [hget]
  dsimp only
  rw [if_pos htr, hdp]
  dsimp only
  rw [if_pos htr2, hconv]

theorem dateFieldStep_sets (fs : List (String × Json)) (field : String)
    (v dp0 : Json) (iso : String) (hget : objGet fs field = some v)
    (htr : (v.jsTruthy && v.typeofObject) = true)
    (hdp : jsGetProp v "date-parts" = some dp0)
    (htr2 : dp0.jsTruthy = true)
    (hconv : convertDatePartsToISOString (unwrapDateParts dp0) = some iso) :
    dateFieldStep fs field = objSet fs field (.str iso) := by
  unfold dateFieldStep
  rw [hget]
  dsimp only
  rw [if_pos htr, hdp]
  dsimp only
  rw [if_pos htr2, hconv]

theorem phaseLicense_none (fs : List (String × Json))
    (h : objGet fs "license" = none) : phaseLicense fs = fs := by
  unfold phaseLicense
  rw [h]

/-! ## Lookup behaviour of the null pass -/

theorem keys_cleanFields (fs : List (String × Json)) (p : String × Json)
    (h : p ∈ cleanFields fs) : ∃ q ∈ fs, p.1 = q.1 := by
  induction fs with
  | nil => simp [cleanFields] at h
  | cons q qs ih =>
      obtain ⟨k, v⟩ := q
      rw [cleanFields] at h
      by_cases hv : v = Json.null
      · rw [if_pos hv] at h
        by_cases hk : isSentinelKey k = true
        · rw [if_pos hk] at h
          rcases List.mem_cons.mp h with h' | h'
          · exact ⟨(k, v), by simp, by rw [h']⟩
          · rcases ih h' with ⟨r, hr, he⟩
            exact ⟨r, by simp [hr], he⟩
        · rw [if_neg hk] at h
          rcases ih h with ⟨r, hr, he⟩
          exact ⟨r, by simp [hr], he⟩
      · rw [if_neg hv] at h
        rcases List.mem_cons.mp h with h' | h'
        · exact ⟨(k, v), by simp, by rw [h']⟩
        · rcases ih h' with ⟨r, hr, he⟩
          exact ⟨r, by simp [hr], he⟩

theorem cleanFields_null_sentinel (fs : List (String × Json)) (k : String)
    (hget : objGet fs k = some Json.null) (hs : isSentinelKey k = true) :
    objGet (cleanFields fs) k = some (.str "") := by
  induction fs with
  | nil => simp [objGet] at hget
  | cons q qs ih =>
      obtain ⟨k₀, v₀⟩ := q
      by_cases h0 : k₀ = k
      · subst h0
        rw [objGet, if_pos rfl] at hget
        injection hget with hv
        rw [cleanFields, if_pos hv, if_pos hs]
        rw [objGet, if_pos rfl]
      · rw [objGet, if_neg h0] at hget
        rw [cleanFields]
        by_cases hv : v₀ = Json.null
        · rw [if_pos hv]
          by_cases hk : isSentinelKey k₀ = true
          · rw [if_pos hk, objGet, if_neg h0]
            exact ih hget
          · rw [if_neg hk]
            exact ih hget
        · rw [if_neg hv, objGet, if_neg h0]
          exact ih hget

theorem cleanFields_null_dropped (fs : List (String × Json)) (k : String)
    (hnd : nodupKeys fs = true) (hget : objGet fs k = some Json.null)
    (hs : isSentinelKey k = false) :
    objGet (cleanFields fs) k = none := by
  induction fs with
  | nil => simp [objGet] at hget
  | cons q qs ih =>
      obtain ⟨k₀, v₀⟩ := q
      rw [nodupKeys, Bool.and_eq_true, Bool.not_eq_true'] at hnd
      by_cases h0 : k₀ = k
      · subst h0
        rw [objGet, if_pos rfl] at hget
        injection hget with hv
        rw [cleanFields, if_pos hv, if_neg (by rw [hs]; simp)]
        refine objGet_eq_none _ _ ?_
        intro p hp
        rcases keys_cleanFields qs p hp with ⟨r, hr, he⟩
        rw [he]
        exact keys_not_contains qs k₀ hnd.1 r hr
      · rw [objGet, if_neg h0] at hget
        rw [cleanFields]
        by_cases hv : v₀ = Json.null
        · rw [if_pos hv]
          by_cases hk : isSentinelKey k₀ = true
          · rw [if_pos hk, objGet, if_neg h0]
            exact ih hnd.2 hget
          · rw [if_neg hk]
            exact ih hnd.2 hget
        · rw [if_neg hv, objGet, if_neg h0]
          exact ih hnd.2 hget

theorem cleanFields_non_null (fs : List (String × Json)) (k : String)
    (v : Json) (hget : objGet fs k = some v) (hv : v ≠ Json.null) :
    objGet (cleanFields fs) k = some (cleanNullValues v) := by
  induction fs with
  | nil => simp [objGet] at hget
  | cons q qs ih =>
      obtain ⟨k₀, v₀⟩ := q
      by_cases h0 : k₀ = k
      · subst h0
        rw [objGet, if_pos rfl] at hget
        injection hget with hv0
        subst hv0
        rw [cleanFields, if_neg hv, objGet, if_pos rfl]
      · rw [objGet, if_neg h0] at hget
        rw [cleanFields]
        by_cases hv0 : v₀ = Json.null
        · rw [if_pos hv0]
          by_cases hk : isSentinelKey k₀ = true
          · rw [if_pos hk, objGet, if_neg h0]
            exact ih hget
          · rw [if_neg hk]
            exact ih hget
        · rw [if_neg hv0, objGet, if_neg h0]
          exact ih hget

theorem cleanList_filter_map (l : List Json) :
    cleanList l =
      (l.filter (fun x => decide (x ≠ Json.null))).map cleanNullValues := by
  induction l with
  | nil => rfl
  | cons x xs ih =>
      by_cases hx : x = Json.null
      · rw [cleanList, if_pos hx]
        simp only [List.filter, hx]
        simpa using ih
      · rw [cleanList, if_neg hx]
        simp only [List.filter]
        rw [show decide (x ≠ Json.null) = true by simp [hx]]
        simp only [List.map]
        rw [ih]

/-! # The claims -/

/-- Claim C1: for date-part inputs of shape `[[Y]]`, `[[Y,M]]`, `[[Y,M,D]]`
and unwrapped `[Y,M,D]`, the conversion yields the zero-padded
`"YYYY-MM-DD"` with a missing or non-numeric month/day defaulting to `01`;
if the year element does not parse as an integer the conversion yields no
date and the date-bearing field (a named date field holding the
`date-parts`, or a top-level `date-parts` key) is removed from the record
with no date string emitted.  Date-part elements are scalars
(`jdepth _ = 0`), as in every shape the claim names. -/
theorem claim_C1_date_conversion (f : String) (ey em ed eb : Json)
    (y m d : Int) (hf : f ∈ dateFieldNames)
    (hy : jsParseIntJ ey = some y) (hm : jsParseIntJ em = some m)
    (hd : jsParseIntJ ed = some d) (hb : jsParseIntJ eb = none)
    (hs1 : jdepth ey = 0) (hs2 : jdepth em = 0) (hs3 : jdepth ed = 0)
    (hs4 : jdepth eb = 0) :
    convertDatePartsToISOString (.arr [.arr [ey]]) = some (isoFormat y 1 1) ∧
    convertDatePartsToISOString (.arr [.arr [ey, em]]) =
      some (isoFormat y m 1) ∧
    convertDatePartsToISOString (.arr [.arr [ey, em, ed]]) =
      some (isoFormat y m d) ∧
    convertDatePartsToISOString (.arr [ey, em, ed]) =
      some (isoFormat y m d) ∧
    convertDatePartsToISOString (.arr [ey, eb, ed]) =
      some (isoFormat y 1 d) ∧
    convertDatePartsToISOString (.arr [ey, em, eb]) =
      some (isoFormat y m 1) ∧
    convertDatePartsToISOString (.arr [.arr [eb]]) = none ∧
    processDateFields
        (.obj [(f, .obj [("date-parts", .arr [.arr [ey, em, ed]])])]) =
      .obj [(f, .str (isoFormat y m d))] ∧
    processDateFields (.obj [(f, .obj [("date-parts", .arr [.arr [eb]])])]) =
      .obj [] ∧
    processDateFields (.obj [("date-parts", .arr [.arr [ey, em, ed]])]) =
      .obj [("date", .str (isoFormat y m d))] ∧
    processDateFields (.obj [("date-parts", .arr [.arr [eb]])]) = .obj [] ∧
    convertDatePartsToISOString (.arr [.arr [.num 987, .num 6, .num 5]]) =
      some "0987-06-05" := by
  have hone : jsParseIntJ (Json.num 1) = some 1 := by decide
  have hbadconv : convertDatePartsToISOString (.arr [.arr [eb]]) = none := by
    simp [convertDatePartsToISOString, hb]
  have hbadinner : convertDatePartsToISOString (.arr [eb]) = none := by
    cases eb with
    | arr l => simp [jdepth] at hs4
    | null => simp [convertDatePartsToISOString, hb]
    | bool b => simp [convertDatePartsToISOString, hb]
    | num n => simp [convertDatePartsToISOString, hb]
    | str s => simp [convertDatePartsToISOString, hb]
    | obj fs => simp [convertDatePartsToISOString, hb]
  simp only [dateFieldNames, List.mem_cons, List.mem_singleton,
    List.not_mem_nil, or_false] at hf
  refine ⟨?_, ?_, ?_, ?_, ?_, ?_, hbadconv, ?_, ?_, ?_, ?_, by decide⟩
  · simp [convertDatePartsToISOString, hy, hone, isoFormat]
  · simp [convertDatePartsToISOString, hy, hm, hone, isoFormat]
  · simp [convertDatePartsToISOString, hy, hm, hd, isoFormat]
  · simp [convertDatePartsToISOString, hy, hm, hd, isoFormat]
  · simp [convertDatePartsToISOString, hy, hb, hd, isoFormat]
  · simp [convertDatePartsToISOString, hy, hm, hb, hone, isoFormat]
  · have hfuel : jdepth (Json.obj [(f, .obj [("date-parts",
        Json.arr [.arr [ey, em, ed]])])]) = 4 := by
      simp [jdepth, jdepthList, jdepthFields, hs1, hs2, hs3]
    have hconv : convertDatePartsToISOString
        (unwrapDateParts (.arr [.arr [ey, em, ed]])) =
          some (isoFormat y m d) := by
      show convertDatePartsToISOString (.arr [ey, em, ed]) = _
      simp [convertDatePartsToISOString, hy, hm, hd, isoFormat]
    have hstep : dateFieldStep
        [(f, Json.obj [("date-parts", Json.arr [.arr [ey, em, ed]])])] f =
          objSet [(f, Json.obj [("date-parts", Json.arr [.arr [ey, em, ed]])])]
            f (.str (isoFormat y m d)) :=
      dateFieldStep_sets _ f
        (Json.obj [("date-parts", Json.arr [.arr [ey, em, ed]])])
        (Json.arr [.arr [ey, em, ed]]) (isoFormat y m d)
        (by simp [objGet]) rfl rfl rfl hconv
    simp only [processDateFields, hfuel]
    rcases hf with rfl | rfl | rfl | rfl | rfl | rfl | rfl <;>
      simp [processDateFieldsF, dateRewrites, dateFieldNames, List.foldl,
        phaseDateParts_none, dateFieldStep_none, phaseLicense_none, hstep,
        objGet, objSet, processDateFieldsF_str]
  · have hfuel : jdepth (Json.obj [(f, .obj [("date-parts",
        Json.arr [.arr [eb]])])]) = 4 := by
      simp [jdepth, jdepthList, jdepthFields, hs4]
    have hconv : convertDatePartsToISOString
        (unwrapDateParts (.arr [.arr [eb]])) = none := hbadinner
    have hstep : dateFieldStep
        [(f, Json.obj [("date-parts", Json.arr [.arr [eb]])])] f =
          objDelete [(f, Json.obj [("date-parts", Json.arr [.arr [eb]])])]
            f :=
      dateFieldStep_deletes _ f
        (Json.obj [("date-parts", Json.arr [.arr [eb]])])
        (Json.arr [.arr [eb]]) (by simp [objGet]) rfl rfl rfl hconv
    simp only [processDateFields, hfuel]
    rcases hf with rfl | rfl | rfl | rfl | rfl | rfl | rfl <;>
      simp [processDateFieldsF, dateRewrites, dateFieldNames, List.foldl,
        phaseDateParts_none, dateFieldStep_none, phaseLicense_none, hstep,
        objGet, objDelete]
  · have hfuel : jdepth (Json.obj [("date-parts",
        Json.arr [.arr [ey, em, ed]])]) = 3 := by
      simp [jdepth, jdepthList, jdepthFields, hs1, hs2, hs3]
    have hconv : convertDatePartsToISOString
        (unwrapDateParts (.arr [.arr [ey, em, ed]])) =
          some (isoFormat y m d) := by
      show convertDatePartsToISOString (.arr [ey, em, ed]) = _
      simp [convertDatePartsToISOString, hy, hm, hd, isoFormat]
    have hphase : phaseDateParts
        [("date-parts", Json.arr [.arr [ey, em, ed]])] =
          objDelete (objSet [("date-parts", Json.arr [.arr [ey, em, ed]])]
            "date" (.str (isoFormat y m d))) "date-parts" :=
      phaseDateParts_sets _ (Json.arr [.arr [ey, em, ed]]) (isoFormat y m d)
        (by simp [objGet]) hconv
    simp only [processDateFields, hfuel]
    simp [processDateFieldsF, dateRewrites, dateFieldNames, List.foldl,
      hphase, dateFieldStep_none, phaseLicense_none, objGet, objSet,
      objDelete, processDateFieldsF_str]
  · have hfuel : jdepth (Json.obj [("date-parts",
        Json.arr [.arr [eb]])]) = 3 := by
      simp [jdepth, jdepthList, jdepthFields, hs4]
    have hconv : convertDatePartsToISOString
        (unwrapDateParts (.arr [.arr [eb]])) = none := hbadinner
    have hphase : phaseDateParts [("date-parts", Json.arr [.arr [eb]])] =
        objDelete [("date-parts", Json.arr [.arr [eb]])] "date-parts" :=
      phaseDateParts_deletes _ (Json.arr [.arr [eb]])
        (by simp [objGet]) hconv
    simp only [processDateFields, hfuel]
    simp [processDateFieldsF, dateRewrites, dateFieldNames, List.foldl,
      hphase, dateFieldStep_none, phaseLicense_none, objGet, objDelete]

/-- Witness for C1 at `f := "published"`, `[[2020, 7, 3]]`, and the
non-numeric element `"n.d."`. -/
theorem claim_C1_date_conversion_witness :
    convertDatePartsToISOString (.arr [.arr [.num 2020, .num 7, .num 3]]) =
      some "2020-07-03" ∧
    processDateFields (.obj [("published", .obj [("date-parts",
        .arr [.arr [.num 2020, .num 7, .num 3]])])]) =
      .obj [("published", .str "2020-07-03")] ∧
    processDateFields (.obj [("published", .obj [("date-parts",
        .arr [.arr [.str "n.d."]])])]) = .obj [] := by
  have h := claim_C1_date_conversion "published" (.num 2020) (.num 7)
    (.num 3) (.str "n.d.") 2020 7 3 (by decide) (by decide) (by decide)
    (by decide) (by decide) (by decide) (by decide) (by decide) (by decide)
  have hiso : isoFormat 2020 7 3 = "2020-07-03" := by decide
  refine ⟨?_, ?_, h.2.2.2.2.2.2.2.2.1⟩
  · rw [h.2.2.1, hiso]
  · rw [h.2.2.2.2.2.2.2.1, hiso]

/-- Claim C2 as stated is false: the record `{"x":[3,[4,[5]]]}` (arrays
nested three deep) passes the flattening pass, whose one-level
concatenation leaves `[3,4,[5]]`; its serialization contains no `[[`, so
the corrective pass never runs, and the output still contains an array
whose element is an array. -/
theorem claim_C2_counterexample :
    noNested (transformRecord
      (.obj [("x", .arr [.num 3, .arr [.num 4, .arr [.num 5]]])])) =
        false := by
  decide

/-- Claim C2 (amended): for every decoded input record whose arrays are
nested at most two deep, the output record contains no array whose elements
are themselves arrays; deeper nesting can survive both the flattening pass
and the post-serialization corrective pass. -/
theorem claim_C2_no_nested_arrays (j : Json) (h : nestLe2 j = true) :
    noNested (transformRecord j) = true := by
  have h1 : nnx (flattenNestedArrays j) = true :=
    flattenJ_nnx j none (by simp) h
  have h2 : noNested (processDateFields (flattenNestedArrays j)) = true :=
    processDateFieldsF_noNested _ _ h1 (Nat.lt_succ_self _)
  have h3 : noNested
      (fixBigQueryIssues (processDateFields (flattenNestedArrays j))) =
        true :=
    fixBigQueryIssuesF_noNested _ _ h2
  have h4 := cleanNullValues_noNested _ h3
  have h5 := replaceKeyDashes_noNested _ h4
  unfold transformRecord
  dsimp only
  split
  · rw [lastFixV_eq_self _ h5]
    exact h5
  · exact h5

/-- Witness for C2 at the spec's own flattening example
`{"x": [[1,2],[3]]}`. -/
theorem claim_C2_no_nested_arrays_witness :
    nestLe2 (.obj [("x", .arr [.arr [.num 1, .num 2], .arr [.num 3]])]) =
        true ∧
      noNested (transformRecord
        (.obj [("x", .arr [.arr [.num 1, .num 2], .arr [.num 3]])])) =
          true :=
  ⟨by decide, claim_C2_no_nested_arrays _ (by decide)⟩

/-- Claim C5 as stated is false: `{"x":[3,4,[5]]}` is the pipeline's output
for `{"x":[3,[4,[5]]]}`, yet running the pipeline on it flattens further to
`{"x":[3,4,5]}` — the pipeline is not idempotent on its own outputs. -/
theorem claim_C5_counterexample :
    transformRecord (transformRecord
        (.obj [("x", .arr [.num 3, .arr [.num 4, .arr [.num 5]]])])) ≠
      transformRecord
        (.obj [("x", .arr [.num 3, .arr [.num 4, .arr [.num 5]]])]) := by
  decide

/-- Claim C5 (amended): the pipeline is the identity on every record
satisfying the normalization invariants — no nested array, no `null`
value, no `date-parts` field, no string-valued `year`, and duplicate-free
hyphen-free keys.  Pipeline outputs that still contain a nested array (see
the counterexample) are exactly the outputs on which it is not
idempotent. -/
theorem claim_C5_idempotent_on_normalized (j : Json)
    (h : normalizedRecord j = true) : transformRecord j = j := by
  unfold normalizedRecord at h
  simp only [Bool.and_eq_true] at h
  obtain ⟨⟨⟨⟨hnest, hnull⟩, hdp⟩, hyear⟩, hkeys⟩ := h
  have h1 : flattenNestedArrays j = j := flattenJ_eq_self j hnest none
  have h2 : processDateFields j = j := processDateFieldsF_eq_self _ j hdp
  have h3 : fixBigQueryIssues j = j := fixBigQueryIssuesF_eq_self _ j hyear
  have h4 : cleanNullValues j = j := cleanNullValues_eq_self j hnull
  have h5 : replaceKeyDashes j = j := replaceKeyDashes_eq_self j hkeys
  unfold transformRecord
  dsimp only
  rw [h1, h2, h3, h4, h5]
  split
  · exact lastFixV_eq_self j hnest
  · rfl

/-- Witness for C5 on a normalized record with a converted date, a numeric
year, a sentinel field and a license entry. -/
theorem claim_C5_idempotent_on_normalized_witness :
    normalizedRecord (.obj [("year", .num 2020),
        ("published", .str "2020-01-01"), ("colidentifier", .str ""),
        ("license", .arr [.obj [("start", .str "2019-02-01")]])]) = true ∧
      transformRecord (.obj [("year", .num 2020),
          ("published", .str "2020-01-01"), ("colidentifier", .str ""),
          ("license", .arr [.obj [("start", .str "2019-02-01")]])]) =
        .obj [("year", .num 2020), ("published", .str "2020-01-01"),
          ("colidentifier", .str ""),
          ("license", .arr [.obj [("start", .str "2019-02-01")]])] :=
  ⟨by decide, claim_C5_idempotent_on_normalized _ (by decide)⟩

/-- Claim C10: two distinct keys that collide after hyphen replacement
(`a-b` and `a_b`) leave a single property holding the last-enumerated
value; the rename pass is not injective on fields, and the output object
has one field where the input had two. -/
theorem claim_C10_key_rename_collision :
    replaceKeyDashes (.obj [("a-b", .num 1), ("a_b", .num 2)]) =
      .obj [("a_b", .num 2)] := by
  decide

/-- Claim C4: the null-cleaning pass drops a `null`-valued key unless the
key contains `colidentifier` or starts and ends with `*` (those become the
empty string); `null` array elements are removed outright; non-null values
stay in place, cleaned recursively.  Keys of a parsed JSON object are
unique (`nodupKeys`). -/
theorem claim_C4_null_cleaning (fs : List (String × Json)) (k : String)
    (v : Json) (l : List Json) (hnd : nodupKeys fs = true) :
    (objGet fs k = some Json.null → isSentinelKey k = true →
      jsGetProp (cleanNullValues (.obj fs)) k = some (.str "")) ∧
    (objGet fs k = some Json.null → isSentinelKey k = false →
      jsGetProp (cleanNullValues (.obj fs)) k = none) ∧
    (objGet fs k = some v → v ≠ Json.null →
      jsGetProp (cleanNullValues (.obj fs)) k =
        some (cleanNullValues v)) ∧
    cleanNullValues (.arr l) =
      .arr ((l.filter (fun x => decide (x ≠ Json.null))).map
        cleanNullValues) := by
  refine ⟨?_, ?_, ?_, ?_⟩
  · intro hget hs
    exact cleanFields_null_sentinel fs k hget hs
  · intro hget hs
    exact cleanFields_null_dropped fs k hnd hget hs
  · intro hget hv
    exact cleanFields_non_null fs k v hget hv
  · show Json.arr (cleanList l) = _
    rw [cleanList_filter_map]

/-- Witness for C4 at the spec's own examples. -/
theorem claim_C4_null_cleaning_witness :
    jsGetProp (cleanNullValues (.obj [("*x*", Json.null),
        ("colidentifier_y", Json.null), ("z", Json.null),
        ("a", Json.num 5)])) "*x*" = some (.str "") ∧
    jsGetProp (cleanNullValues (.obj [("*x*", Json.null),
        ("colidentifier_y", Json.null), ("z", Json.null),
        ("a", Json.num 5)])) "z" = none ∧
    jsGetProp (cleanNullValues (.obj [("*x*", Json.null),
        ("colidentifier_y", Json.null), ("z", Json.null),
        ("a", Json.num 5)])) "a" = some (.num 5) ∧
    cleanNullValues (.arr [.num 1, Json.null, .num 2]) =
      .arr [.num 1, .num 2] := by
  refine ⟨(claim_C4_null_cleaning _ "*x*" (.num 5) [] (by decide)).1
      (by decide) (by decide),
    (claim_C4_null_cleaning _ "z" (.num 5) [] (by decide)).2.1
      (by decide) (by decide),
    (claim_C4_null_cleaning _ "a" (.num 5) [] (by decide)).2.2.1
      (by decide) (by decide), ?_⟩
  rw [(claim_C4_null_cleaning [] "a" (.num 5) [.num 1, Json.null, .num 2]
    (by decide)).2.2.2]
  decide

/-- Claim C3: a string-valued `year` that is all digits becomes the parsed
integer (creating no `year_string` where none existed); one that is not all
digits moves verbatim to `year_string` and `year` is removed; and in no
output of the pass does `year` remain a string. -/
theorem claim_C3_year_handling (fs : List (String × Json)) (s : String) :
    (objGet fs "year" = some (.str s) → isAllDigits s = true →
      jsGetProp (fixBigQueryIssues (.obj fs)) "year" =
          some (.num (digitsToNat s.toList)) ∧
        (objGet fs "year_string" = none →
          jsGetProp (fixBigQueryIssues (.obj fs)) "year_string" = none)) ∧
    (objGet fs "year" = some (.str s) → isAllDigits s = false →
      jsGetProp (fixBigQueryIssues (.obj fs)) "year_string" =
          some (.str s) ∧
        jsGetProp (fixBigQueryIssues (.obj fs)) "year" = none) ∧
    (∀ t, jsGetProp (fixBigQueryIssues (.obj fs)) "year" ≠
      some (.str t)) := by
  have hmap : ∀ (gs : List (String × Json)) (k : String) (n : Nat),
      jsGetProp (Json.obj (gs.map
          (fun p => (p.1, fixBigQueryIssuesF n p.2)))) k =
        (objGet gs k).map (fixBigQueryIssuesF n) :=
    fun gs k n => objGet_map_values gs (fixBigQueryIssuesF n) k
  constructor
  · intro hget hdig
    have hyf : yearFix fs = objSet fs "year"
        (.num (digitsToNat s.toList)) := by
      unfold yearFix
      rw [hget]
      simp only [hdig, Bool.not_true, Bool.false_eq_true, if_false,
        jsParseIntStr_of_digits s hdig]
    constructor
    · show jsGetProp (Json.obj ((yearFix fs).map
        (fun p => (p.1, fixBigQueryIssuesF (jdepthFields fs + 1) p.2))))
          "year" = _
      rw [hmap, hyf, objGet_objSet_self]
      simp only [Option.map]
      rw [fixBigQueryIssuesF_num]
    · intro hnone
      show jsGetProp (Json.obj ((yearFix fs).map
        (fun p => (p.1, fixBigQueryIssuesF (jdepthFields fs + 1) p.2))))
          "year_string" = _
      rw [hmap, hyf, objGet_objSet_ne _ _ _ _ (by decide), hnone]
      rfl
  constructor
  · intro hget hdig
    have hyf : yearFix fs =
        objDelete (objSet fs "year_string" (.str s)) "year" := by
      unfold yearFix
      rw [hget]
      simp only [hdig, Bool.not_false, if_true]
    constructor
    · show jsGetProp (Json.obj ((yearFix fs).map
        (fun p => (p.1, fixBigQueryIssuesF (jdepthFields fs + 1) p.2))))
          "year_string" = _
      rw [hmap, hyf, objGet_objDelete_ne _ _ _ (by decide),
        objGet_objSet_self]
      simp only [Option.map]
      rw [fixBigQueryIssuesF_str]
    · show jsGetProp (Json.obj ((yearFix fs).map
        (fun p => (p.1, fixBigQueryIssuesF (jdepthFields fs + 1) p.2))))
          "year" = _
      rw [hmap, hyf, objGet_objDelete_self]
      rfl
  · intro t
    show jsGetProp (Json.obj ((yearFix fs).map
      (fun p => (p.1, fixBigQueryIssuesF (jdepthFields fs + 1) p.2))))
        "year" ≠ _
    rw [hmap]
    cases hget : objGet fs "year" with
    | none =>
        have hyf : yearFix fs = fs := by
          unfold yearFix
          rw [hget]
        rw [hyf, hget]
        simp
    | some v =>
        cases v with
        | str u =>
            by_cases hdig : isAllDigits u = true
            · have hyf : yearFix fs = objSet fs "year"
                  (.num (digitsToNat u.toList)) := by
                unfold yearFix
                rw [hget]
                simp only [hdig, Bool.not_true, Bool.false_eq_true,
                  if_false, jsParseIntStr_of_digits u hdig]
              rw [hyf, objGet_objSet_self]
              simp [fixBigQueryIssuesF_num]
            · have hyf : yearFix fs =
                  objDelete (objSet fs "year_string" (.str u)) "year" := by
                unfold yearFix
                rw [hget]
                simp only [Bool.not_eq_true] at hdig
                simp only [hdig, Bool.not_false, if_true]
              rw [hyf, objGet_objDelete_self]
              simp
        | null =>
            have hyf : yearFix fs = fs := by
              unfold yearFix
              rw [hget]
            rw [hyf, hget]
            simp only [Option.map]
            intro he
            injection he with he'
            exact fixBigQueryIssuesF_not_str _ _ (fun u hu =>
              Json.noConfusion hu) t he'
        | bool b =>
            have hyf : yearFix fs = fs := by
              unfold yearFix
              rw [hget]
            rw [hyf, hget]
            simp only [Option.map]
            intro he
            injection he with he'
            exact fixBigQueryIssuesF_not_str _ _ (fun u hu =>
              Json.noConfusion hu) t he'
        | num n =>
            have hyf : yearFix fs = fs := by
              unfold yearFix
              rw [hget]
            rw [hyf, hget]
            simp only [Option.map]
            intro he
            injection he with he'
            exact fixBigQueryIssuesF_not_str _ _ (fun u hu =>
              Json.noConfusion hu) t he'
        | arr a =>
            have hyf : yearFix fs = fs := by
              unfold yearFix
              rw [hget]
            rw [hyf, hget]
            simp only [Option.map]
            intro he
            injection he with he'
            exact fixBigQueryIssuesF_not_str _ _ (fun u hu =>
              Json.noConfusion hu) t he'
        | obj o =>
            have hyf : yearFix fs = fs := by
              unfold yearFix
              rw [hget]
            rw [hyf, hget]
            simp only [Option.map]
            intro he
            injection he with he'
            exact fixBigQueryIssuesF_not_str _ _ (fun u hu =>
              Json.noConfusion hu) t he'

/-- Witness for C3 at the spec's own examples `"2020"` and `"2020-21"`. -/
theorem claim_C3_year_handling_witness :
    jsGetProp (fixBigQueryIssues (.obj [("year", .str "2020")])) "year" =
        some (.num 2020) ∧
    jsGetProp (fixBigQueryIssues (.obj [("year", .str "2020")]))
        "year_string" = none ∧
    jsGetProp (fixBigQueryIssues (.obj [("year", .str "2020-21")]))
        "year_string" = some (.str "2020-21") ∧
    jsGetProp (fixBigQueryIssues (.obj [("year", .str "2020-21")]))
        "year" = none := by
  have h1 := (claim_C3_year_handling [("year", .str "2020")] "2020").1
    (by decide) (by decide)
  have h2 := (claim_C3_year_handling [("year", .str "2020-21")]
    "2020-21").2.1 (by decide) (by decide)
  refine ⟨?_, h1.2 (by decide), h2.1, h2.2⟩
  have := h1.1
  rw [this]
  decide

/-- Claim C6: a malformed line increments the error counter by exactly one,
contributes nothing to the output, and leaves the processed count of the
surrounding valid lines unchanged; a blank line is counted neither as a
record nor as an error; the loop never terminates early — the lines after
the bad or blank one (`ys`) contribute exactly as they would without it. -/
theorem claim_C6_per_line_isolation (debug : Bool) (xs ys : List LineInput) :
    (runLines debug (xs ++ LineInput.malformed :: ys)).errorCount =
        (runLines debug (xs ++ ys)).errorCount + 1 ∧
    (runLines debug (xs ++ LineInput.malformed :: ys)).processedCount =
        (runLines debug (xs ++ ys)).processedCount ∧
    concatAll (runLines debug (xs ++ LineInput.malformed :: ys)).emitted =
        concatAll (runLines debug (xs ++ ys)).emitted ∧
    (runLines debug (xs ++ LineInput.blank :: ys)).errorCount =
        (runLines debug (xs ++ ys)).errorCount ∧
    (runLines debug (xs ++ LineInput.blank :: ys)).processedCount =
        (runLines debug (xs ++ ys)).processedCount := by
  unfold runLines
  refine ⟨?_, ?_, ?_, ?_, ?_⟩
  · rw [foldl_stepLine_errorCount, foldl_stepLine_errorCount]
    simp [List.countP_append, List.countP_cons, LineInput.isMalformed]
    omega
  · rw [foldl_stepLine_processedCount, foldl_stepLine_processedCount]
    simp [List.countP_append, List.countP_cons, LineInput.isValid]
  · rw [foldl_stepLine_emitted, foldl_stepLine_emitted]
    simp only [List.nil_append, List.map_append, List.map_cons,
      concatAll_append]
    show concatAll _ ++ ("" ++ concatAll _) = _
    rw [String.empty_append]
  · rw [foldl_stepLine_errorCount, foldl_stepLine_errorCount]
    simp [List.countP_append, List.countP_cons, LineInput.isMalformed]
  · rw [foldl_stepLine_processedCount, foldl_stepLine_processedCount]
    simp [List.countP_append, List.countP_cons, LineInput.isValid]

/-- Claim C7: an unrecoverable stream-level error (source read or
destination write failure) rejects the file promise, `processFile` then
reports failure and deletes the partial output artifact exactly when it is
on disk; without a stream-level error the promise always resolves — no
number of per-line failures triggers the file-level abort path. -/
theorem claim_C7_stream_error_cleanup (debug : Bool)
    (lines : List LineInput) (e : StreamErr) (t : GzipReadTrace)
    (outputExists : Bool) :
    processJsonlFileOutcome debug lines (some e) = Except.error e ∧
    (processFile debug lines (some e) t outputExists).success = false ∧
    (processFile debug lines (some e) t outputExists).outputDeleted =
        outputExists ∧
    processJsonlFileOutcome debug lines none =
        Except.ok ((runLines debug lines).processedCount,
          (runLines debug lines).errorCount) := by
  exact ⟨rfl, rfl, rfl, rfl⟩

/-- Claim C8: in resume mode, an input file whose `_processed` artifact is
already in the output directory is excluded from the files to process, so
no job is dispatched for it (jobs are exactly the returned list); the skip
set is a pure function of the two directory listings, recomputed each run
with no separate ledger.  The ordinal `s` is the filename's leading digit
run, so it contains no underscore. -/
theorem claim_C8_resume_skips_processed (inputFiles outputFiles :
    List String) (s : String)
    (hs : ∀ c ∈ s.toList, c ≠ '_')
    (hmem : (s ++ "_processed.jsonl.gz") ∈ outputFiles) :
    (s ++ ".jsonl.gz") ∉
      getFilesToProcess inputFiles outputFiles true none := by
  intro hx
  unfold getFilesToProcess at hx
  simp only [if_pos rfl] at hx
  have hx' := List.mem_filter.mp hx
  have hproc : (s ++ ".jsonl.gz") ∈
      (outputFiles.filter
          (fun f => strEndsWith f "_processed.jsonl.gz")).map
        (fun f => strSplitFirst f '_' ++ ".jsonl.gz") := by
    refine List.mem_map.mpr ⟨s ++ "_processed.jsonl.gz", ?_, ?_⟩
    · refine List.mem_filter.mpr ⟨hmem, ?_⟩
      unfold strEndsWith
      rw [List.isSuffixOf_iff_suffix]
      show "_processed.jsonl.gz".toList <:+ (s ++ "_processed.jsonl.gz").data
      rw [String.data_append]
      exact List.suffix_append _ _
    · unfold strSplitFirst
      show (⟨((s ++ "_processed.jsonl.gz").data).takeWhile
        (fun c => c ≠ '_')⟩ : String) ++ ".jsonl.gz" = s ++ ".jsonl.gz"
      rw [String.data_append]
      rw [takeWhile_append_of_all _ s.data "_processed.jsonl.gz".data
        (fun c hc => by simpa using hs c hc)]
      rw [show ("_processed.jsonl.gz".data).takeWhile
        (fun c => (c ≠ '_' : Bool)) = [] from rfl]
      rw [List.append_nil]
  have hcontains := List.elem_eq_true_of_mem hproc
  have := hx'.2
  rw [show (List.contains ((outputFiles.filter
      (fun f => strEndsWith f "_processed.jsonl.gz")).map
        (fun f => strSplitFirst f '_' ++ ".jsonl.gz"))
      (s ++ ".jsonl.gz")) = true from hcontains] at this
  simp at this

/-- Witness for C8: with `3_processed.jsonl.gz` already produced,
`3.jsonl.gz` is not dispatched again. -/
theorem claim_C8_resume_skips_processed_witness :
    (∀ c ∈ ("3" : String).toList, c ≠ '_') ∧
    ("3" ++ "_processed.jsonl.gz") ∈ ["3_processed.jsonl.gz"] ∧
    ("3" ++ ".jsonl.gz") ∉
      getFilesToProcess ["3.jsonl.gz", "4.jsonl.gz"]
        ["3_processed.jsonl.gz"] true none :=
  ⟨by decide, by decide,
    claim_C8_resume_skips_processed ["3.jsonl.gz", "4.jsonl.gz"]
      ["3_processed.jsonl.gz"] "3" (by decide) (by decide)⟩

/-- Claim C9 as stated is false: a gzip artifact whose stream yields one
data chunk and then errors (a corrupt tail) passes validation without
debug mode — the validator destroys the stream and resolves on the first
chunk — but fails with debug mode, which decompresses to the end; the
job's pass/fail outcome differs accordingly. -/
theorem claim_C9_counterexample :
    validateGzipFile false ⟨1, false⟩ = true ∧
    validateGzipFile true ⟨1, false⟩ = false ∧
    (processFile false [] none ⟨1, false⟩ true).success = true ∧
    (processFile true [] none ⟨1, false⟩ true).success = false := by
  decide

/-- Claim C9 (amended): the record counters and emitted output are
independent of the debug flag, and on artifacts whose gzip stream
decompresses to a clean end the validation verdict and the whole job
outcome agree between debug modes; the two modes disagree only on
corrupt-tail artifacts (see the counterexample). -/
theorem claim_C9_debug_mode_outcome (lines : List LineInput)
    (t : GzipReadTrace) (streamErr : Option StreamErr)
    (outputExists : Bool) (h : t.cleanEnd = true) :
    validateGzipFile true t = validateGzipFile false t ∧
    processFile true lines streamErr t outputExists =
        processFile false lines streamErr t outputExists ∧
    (runLines true lines).processedCount =
        (runLines false lines).processedCount ∧
    (runLines true lines).errorCount = (runLines false lines).errorCount ∧
    (runLines true lines).emitted = (runLines false lines).emitted := by
  obtain ⟨n, ce⟩ := t
  subst h
  have hrl := foldl_stepLine_debug_agnostic lines ⟨[], [], 0, 0⟩
    ⟨[], [], 0, 0⟩ rfl rfl rfl
  have hval : validateGzipFile true ⟨n, true⟩ =
      validateGzipFile false ⟨n, true⟩ := by
    unfold validateGzipFile
    cases n <;> simp
  refine ⟨hval, ?_, hrl.2.1, hrl.2.2, hrl.1⟩
  cases streamErr with
  | some e => rfl
  | none =>
      show (if validateGzipFile true ⟨n, true⟩ = true then _ else _) =
        (if validateGzipFile false ⟨n, true⟩ = true then _ else _)
      rw [hval]
      have hp : (runLines true lines).processedCount =
          (runLines false lines).processedCount := hrl.2.1
      have he : (runLines true lines).errorCount =
          (runLines false lines).errorCount := hrl.2.2
      by_cases hv : validateGzipFile false ⟨n, true⟩ = true
      · rw [if_pos hv, if_pos hv]
        show ProcessFileResult.mk true _ _ false =
          ProcessFileResult.mk true _ _ false
        rw [hp, he]
      · rw [if_neg hv, if_neg hv]

/-- Witness for C9 on a clean two-chunk artifact and a file with one valid
and one malformed line. -/
theorem claim_C9_debug_mode_outcome_witness :
    (GzipReadTrace.mk 2 true).cleanEnd = true ∧
    validateGzipFile true ⟨2, true⟩ = validateGzipFile false ⟨2, true⟩ ∧
    processFile true [LineInput.valid (.obj []), LineInput.malformed]
        none ⟨2, true⟩ false =
      processFile false [LineInput.valid (.obj []), LineInput.malformed]
        none ⟨2, true⟩ false :=
  ⟨rfl,
    (claim_C9_debug_mode_outcome [LineInput.valid (.obj []),
      LineInput.malformed] ⟨2, true⟩ none false rfl).1,
    (claim_C9_debug_mode_outcome [LineInput.valid (.obj []),
      LineInput.malformed] ⟨2, true⟩ none false rfl).2.1⟩
